import Mathlib

/-!
# A verification development for `mcp-go/main.go`

The program is an MCP demonstration server with two tools: `hello_world` and
`bitcoin_price`, the latter built on the helper `get_price`, which performs one
HTTP GET, decodes the JSON body into `CoinGeckoResponse`, and selects a field
with a `switch` over twenty string literals.

The embedding is shallow.  The network and the clock are an explicit `World`
value (the outcome of `client.Get`, of `io.ReadAll` and of `time.Now`).  The
standard-library functions the program calls are given executable models:
`json.Unmarshal` (a JSON reader plus the struct decoding rules of
`encoding/json`), `strconv.ParseFloat`, the `%.2f` verb of `fmt.Sprintf`, and
`Time.Format(time.RFC1123)`.  A `float64` is represented by its 64 IEEE-754 bits.
Response bodies and currency arguments are Unicode strings.  The wording of the
errors of `encoding/json` is abridged; only their presence matters below.
Logging is omitted.

The file has three parts: the definitions (library models, the program, sample
worlds and the predicates the statements use), lemmas (the JSON reader does not
depend on its fuel; the program after a successful or failed decode; case
spellings; the decoder; decoded prices are finite), and the theorems for the claims
C1 to C10.
-/

/-! ## float64 -/

/-- A Go `float64`, represented by its IEEE-754 binary64 bit pattern
(sign bit 63, exponent bits 62..52, fraction bits 51..0). -/
structure Float64 where
  bits : Nat
deriving DecidableEq, Repr

namespace Float64

/-- The zero value of `float64` (positive zero). -/
def zero : Float64 := ⟨0⟩

/-- The sign bit. -/
def sign (f : Float64) : Bool := decide ((f.bits / 2 ^ 63) % 2 = 1)

/-- The biased exponent field, eleven bits. -/
def expField (f : Float64) : Nat := (f.bits / 2 ^ 52) % 2 ^ 11

/-- The fraction field, fifty-two bits. -/
def frac (f : Float64) : Nat := f.bits % 2 ^ 52

end Float64

/-- Round the quotient `n / d` to the nearest integer, ties to even. -/
def roundHalfEven (n d : Nat) : Nat :=
  let q := n / d
  let r := n % d
  if 2 * r > d then q + 1
  else if 2 * r = d ∧ q % 2 = 1 then q + 1
  else q

/-- The decimal digits of a number, most significant first, at least `width` of them
(padded with zeros on the left), as `appendInt` of package `time` and the digit
output of `strconv` produce them. -/
def decimalDigits (width n : Nat) : String :=
  let s := Nat.repr n
  String.mk (List.replicate (width - s.length) '0') ++ s

namespace fmt

/-- The text `fmt.Sprintf("%.2f", f)` produces: the exact value of `f` rounded to two
decimals (ties to even, as `strconv` rounds its exact decimal expansion), the sign
printed whenever the sign bit is set; infinities and NaN print as `+Inf`, `-Inf`, `NaN`. -/
def fixed2 (f : Float64) : String :=
  if f.expField = 2047 then
    if f.frac ≠ 0 then "NaN" else if f.sign then "-Inf" else "+Inf"
  else
    let m := if f.expField = 0 then f.frac else 2 ^ 52 + f.frac
    let e := if f.expField = 0 then 1 else f.expField
    -- the value is m * 2 ^ (e - 1075)
    let hundredths :=
      if 1075 ≤ e then m * 100 * 2 ^ (e - 1075)
      else roundHalfEven (m * 100) (2 ^ (1075 - e))
    (if f.sign then "-" else "") ++ Nat.repr (hundredths / 100) ++ "." ++
      decimalDigits 2 (hundredths % 100)

end fmt

/-! ## time -/

namespace time

/-- A `time.Time` as `Format` reads it: the calendar date, the clock, the weekday and
the zone of the instant in its location. -/
structure Time where
  year : Nat
  /-- Zero-based month: 0 is January. -/
  monthIndex : Fin 12
  day : Nat
  hour : Nat
  minute : Nat
  second : Nat
  /-- Zero-based weekday: 0 is Sunday. -/
  weekday : Fin 7
  /-- Zone abbreviation; empty when the location has none. -/
  zoneName : String
  /-- Zone offset in seconds east of UTC. -/
  zoneOffset : Int

/-- Three-letter weekday names. -/
def shortDayNames : List String := ["Sun", "Mon", "Tue", "Wed", "Thu", "Fri", "Sat"]

/-- Three-letter month names. -/
def shortMonthNames : List String :=
  ["Jan", "Feb", "Mar", "Apr", "May", "Jun", "Jul", "Aug", "Sep", "Oct", "Nov", "Dec"]

/-- The zone as layout element `MST` prints it: the abbreviation, or the numeric
offset `-0700` when there is none.  The offset is converted to minutes by Go's integer
division, which truncates toward zero. -/
def formatZone (t : Time) : String :=
  if t.zoneName ≠ "" then t.zoneName
  else
    let zone := Int.tdiv t.zoneOffset 60
    let a := zone.natAbs
    (if zone < 0 then "-" else "+") ++ decimalDigits 2 (a / 60) ++ decimalDigits 2 (a % 60)

/-- The text of `t.Format(time.RFC1123)`, layout `Mon, 02 Jan 2006 15:04:05 MST`. -/
def formatRFC1123 (t : Time) : String :=
  shortDayNames.getD t.weekday.val "" ++ ", " ++ decimalDigits 2 t.day ++ " " ++
    shortMonthNames.getD t.monthIndex.val "" ++ " " ++ decimalDigits 4 t.year ++ " " ++
    decimalDigits 2 t.hour ++ ":" ++ decimalDigits 2 t.minute ++ ":" ++
    decimalDigits 2 t.second ++ " " ++ formatZone t

end time

/-! ## The tool response of the protocol library -/

namespace mcp_golang

/-- A content block of a tool response; only text blocks occur in this program. -/
structure Content where
  type : String
  text : String
deriving DecidableEq, Repr

/-- A tool response: its content blocks. -/
structure ToolResponse where
  content : List Content
deriving DecidableEq, Repr

/-- A text content block. -/
def NewTextContent (content : String) : Content := { type := "text", text := content }

/-- A tool response holding the given blocks. -/
def NewToolResponse (content : List Content) : ToolResponse := { content := content }

end mcp_golang

/-- A Go `error` value, represented by the text of its `Error()` method. -/
structure GoError where
  msg : String
deriving DecidableEq, Repr

/-! ## Argument types of the program -/

/-- The struct `Content` of the program: a title and an optional description. -/
structure Content where
  Title : String
  Description : Option String
deriving DecidableEq, Repr

/-- Arguments of the greeting tool. -/
structure HelloArgs where
  Submitter : String
  Content : Content
deriving DecidableEq, Repr

/-- Arguments of the price tool. -/
structure BitcoinPriceArguments where
  Currency : String
deriving DecidableEq, Repr

/-! ## strconv.ParseFloat on JSON number literals -/

namespace strconv

/-- The value of a decimal digit character. -/
def digitVal (c : Char) : Nat := c.toNat - 48

/-- The number a list of decimal digits denotes. -/
def digitsToNat (ds : List Char) : Nat := ds.foldl (fun n c => n * 10 + digitVal c) 0

/-- The exponent as `ParseFloat` accumulates it: digits are taken only while the
value is below 10000. -/
def clippedExp (ds : List Char) : Nat :=
  ds.foldl (fun e c => if e < 10000 then e * 10 + digitVal c else e) 0

/-- Auxiliary for `floorLog2`: at most `fuel` halvings. -/
def floorLog2Aux : Nat → Nat → Nat
  | 0, _ => 0
  | fuel + 1, n => if n < 2 then 0 else floorLog2Aux fuel (n / 2) + 1

/-- The position of the highest set bit of `n` (0 for `n ≤ 1`). -/
def floorLog2 (n : Nat) : Nat := floorLog2Aux n n

/-- The binary64 bits of the positive rational `n / d` (`0 < n`, `0 < d`), rounded to
nearest, ties to even; `none` when the rounded value is beyond the largest finite
float64 (the range error of `ParseFloat`).  Underflow yields a subnormal or zero. -/
def roundToBits (n d : Nat) : Option Nat :=
  let ln := floorLog2 n
  let ld := floorLog2 d
  -- lg = floor (log2 (n / d))
  let lg : Int := if n * 2 ^ ld < d * 2 ^ ln then (ln : Int) - ld - 1 else (ln : Int) - ld
  -- binary exponent of the unit in the last place, not below that of the subnormals
  let e : Int := max (lg - 52) (-1074)
  let m := if 0 ≤ e then roundHalfEven n (d * 2 ^ e.toNat)
           else roundHalfEven (n * 2 ^ (-e).toNat) d
  let m1 := if m = 2 ^ 53 then 2 ^ 52 else m
  let e1 : Int := if m = 2 ^ 53 then e + 1 else e
  if m1 < 2 ^ 52 then some m1
  else if 971 < e1 then none
  else some ((e1 + 1075).toNat * 2 ^ 52 + (m1 - 2 ^ 52))

/-- The result of `strconv.ParseFloat(lit, 64)` on a JSON number literal
(`-? digits (. digits)? ((e|E) (+|-)? digits)?`): the nearest float64, or `none` on a
range error.  The literal is given by its parts. -/
def parseParts (neg : Bool) (intDigits fracDigits : List Char) (expNeg : Bool)
    (expDigits : List Char) : Option Float64 :=
  let mant := digitsToNat (intDigits ++ fracDigits)
  let e := clippedExp expDigits
  let signBit := if neg then 2 ^ 63 else 0
  if mant = 0 then some ⟨signBit⟩
  else
    -- value = mant * 10 ^ (±e - fracDigits.length)
    let (n, d) :=
      if expNeg then (mant, 10 ^ (e + fracDigits.length))
      else if fracDigits.length ≤ e then (mant * 10 ^ (e - fracDigits.length), 1)
      else (mant, 10 ^ (fracDigits.length - e))
    match roundToBits n d with
    | some b => some ⟨signBit + b⟩
    | none => none

end strconv

/-! ## encoding/json: reading a JSON text -/

namespace json

/-- A JSON value.  A number keeps the parts of its literal. -/
inductive JsonValue where
  | null
  | bool (b : Bool)
  | number (neg : Bool) (intDigits fracDigits : List Char) (expNeg : Bool) (expDigits : List Char)
  | string (s : String)
  | array (items : List JsonValue)
  | object (members : List (String × JsonValue))

/-- The most deeply nested text the scanner accepts. -/
def maxNestingDepth : Nat := 10000

/-- JSON white space: space, tab, carriage return, line feed. -/
def isSpace (c : Char) : Bool := c = ' ' || c = '\t' || c = '\r' || c = '\n'

/-- Drop leading white space. -/
def skipSpace : List Char → List Char
  | [] => []
  | c :: cs => if isSpace c then skipSpace cs else c :: cs

/-- A decimal digit. -/
def isDigit (c : Char) : Bool := decide (48 ≤ c.toNat) && decide (c.toNat ≤ 57)

/-- Split off the longest run of leading digits. -/
def takeDigits : List Char → List Char × List Char
  | [] => ([], [])
  | c :: cs => if isDigit c then ((takeDigits cs).1.cons c, (takeDigits cs).2) else ([], c :: cs)

/-- The exponent part of a number, if one follows: `(e|E) (+|-)? digits`. -/
def scanExp (cs : List Char) : Option (Bool × List Char × List Char) :=
  match cs with
  | c :: r =>
    if c = 'e' ∨ c = 'E' then
      let neg := decide (r.head? = some '-')
      let r1 := if r.head? = some '-' ∨ r.head? = some '+' then r.tail else r
      let ds := takeDigits r1
      if ds.1 = [] then none else some (neg, ds.1, ds.2)
    else some (false, [], cs)
  | [] => some (false, [], cs)

/-- The fraction part of a number, if one follows: `. digits`. -/
def scanFrac (cs : List Char) : Option (List Char × List Char) :=
  match cs with
  | c :: r =>
    if c = '.' then
      let ds := takeDigits r
      if ds.1 = [] then none else some ds
    else some ([], cs)
  | [] => some ([], cs)

/-- A number literal at the head of the text: `-? (0 | [1-9] digits) frac? exp?`. -/
def scanNumber (cs : List Char) : Option (JsonValue × List Char) :=
  let neg := decide (cs.head? = some '-')
  let cs1 := if cs.head? = some '-' then cs.tail else cs
  match cs1 with
  | [] => none
  | c :: r =>
    if ¬ isDigit c then none
    else
      let ds := if c = '0' then ([c], r) else ((takeDigits r).1.cons c, (takeDigits r).2)
      match scanFrac ds.2 with
      | none => none
      | some (fr, r2) =>
        match scanExp r2 with
        | none => none
        | some (en, ed, r3) => some (JsonValue.number neg ds.1 fr en ed, r3)

/-- The value of a hexadecimal digit. -/
def hexVal (c : Char) : Option Nat :=
  let n := c.toNat
  if 48 ≤ n ∧ n ≤ 57 then some (n - 48)
  else if 97 ≤ n ∧ n ≤ 102 then some (n - 87)
  else if 65 ≤ n ∧ n ≤ 70 then some (n - 55)
  else none

/-- An item of a string literal: a character, or the UTF-16 code unit of a `\u` escape. -/
inductive StrItem where
  | rune (c : Char)
  | unit (u : Nat)

/-- The items of a string literal after its opening quote, up to the closing quote.
Control characters and malformed escapes are syntax errors. -/
def scanString : List Char → Option (List StrItem × List Char)
  | [] => none
  | c :: r =>
    if c = '"' then some ([], r)
    else if c = '\\' then
      match r with
      | [] => none
      | e :: r1 =>
        if e = 'u' then
          match r1 with
          | a :: b :: c2 :: d :: r2 =>
            match hexVal a, hexVal b, hexVal c2, hexVal d with
            | some x, some y, some z, some w =>
              match scanString r2 with
              | some (items, rest) =>
                some (StrItem.unit (x * 4096 + y * 256 + z * 16 + w) :: items, rest)
              | none => none
            | _, _, _, _ => none
          | _ => none
        else
          let decoded : Option Char :=
            if e = '"' then some '"' else if e = '\\' then some '\\'
            else if e = '/' then some '/' else if e = 'b' then some (Char.ofNat 8)
            else if e = 'f' then some (Char.ofNat 12) else if e = 'n' then some '\n'
            else if e = 'r' then some '\r' else if e = 't' then some '\t' else none
          match decoded with
          | none => none
          | some ch =>
            match scanString r1 with
            | some (items, rest) => some (StrItem.rune ch :: items, rest)
            | none => none
    else if c.toNat < 32 then none
    else
      match scanString r with
      | some (items, rest) => some (StrItem.rune c :: items, rest)
      | none => none

/-- The characters of a string literal: a high surrogate escape directly followed by a
low surrogate escape is one character, any other surrogate escape is U+FFFD. -/
def unquote : List StrItem → List Char
  | [] => []
  | StrItem.rune c :: rest => c :: unquote rest
  | StrItem.unit hi :: StrItem.unit lo :: rest =>
    if 0xD800 ≤ hi ∧ hi < 0xDC00 ∧ 0xDC00 ≤ lo ∧ lo < 0xE000 then
      Char.ofNat (0x10000 + (hi - 0xD800) * 1024 + (lo - 0xDC00)) :: unquote rest
    else if 0xD800 ≤ hi ∧ hi < 0xE000 then Char.ofNat 0xFFFD :: unquote (StrItem.unit lo :: rest)
    else Char.ofNat hi :: unquote (StrItem.unit lo :: rest)
  | StrItem.unit u :: rest =>
    if 0xD800 ≤ u ∧ u < 0xE000 then Char.ofNat 0xFFFD :: unquote rest
    else Char.ofNat u :: unquote rest

/-- Whether the text starts with the given characters; the rest if so. -/
def dropLiteral : List Char → List Char → Option (List Char)
  | [], cs => some cs
  | _ :: _, [] => none
  | p :: ps, c :: cs => if p = c then dropLiteral ps cs else none

/-- One step of reading a value: the value at the head of the text (after white space)
and the rest, with the readers for the elements of an array and the members of an
object given.  `depth` counts the enclosing arrays and objects. -/
def valueStep (elements : Nat → List Char → List JsonValue → Option (JsonValue × List Char))
    (members : Nat → List Char → List (String × JsonValue) → Option (JsonValue × List Char))
    (depth : Nat) (cs : List Char) : Option (JsonValue × List Char) :=
  match skipSpace cs with
  | [] => none
  | c :: r =>
    if c = '\x7b' then
      if maxNestingDepth ≤ depth then none
      else
        match skipSpace r with
        | c1 :: r1 =>
          if c1 = '\x7d' then some (JsonValue.object [], r1)
          else members (depth + 1) (c1 :: r1) []
        | [] => none
    else if c = '[' then
      if maxNestingDepth ≤ depth then none
      else
        match skipSpace r with
        | c1 :: r1 =>
          if c1 = ']' then some (JsonValue.array [], r1)
          else elements (depth + 1) (c1 :: r1) []
        | [] => none
    else if c = '"' then
      match scanString r with
      | some (items, rest) => some (JsonValue.string (String.mk (unquote items)), rest)
      | none => none
    else if c = 't' then (dropLiteral ['r', 'u', 'e'] r).map (fun rest => (JsonValue.bool true, rest))
    else if c = 'f' then
      (dropLiteral ['a', 'l', 's', 'e'] r).map (fun rest => (JsonValue.bool false, rest))
    else if c = 'n' then (dropLiteral ['u', 'l', 'l'] r).map (fun rest => (JsonValue.null, rest))
    else scanNumber (c :: r)

/-- One step of reading the elements of an array after the opening bracket or a comma:
a value, then a comma and the remaining elements, or the closing bracket. -/
def elementsStep (value : Nat → List Char → Option (JsonValue × List Char))
    (elements : Nat → List Char → List JsonValue → Option (JsonValue × List Char))
    (depth : Nat) (cs : List Char) (acc : List JsonValue) : Option (JsonValue × List Char) :=
  match value depth cs with
  | none => none
  | some (v, r) =>
    match skipSpace r with
    | c :: r1 =>
      if c = ',' then elements depth r1 (acc ++ [v])
      else if c = ']' then some (JsonValue.array (acc ++ [v]), r1)
      else none
    | [] => none

/-- One step of reading the members of an object after the opening brace or a comma:
a key, a colon, a value, then a comma and the remaining members, or the closing brace. -/
def membersStep (value : Nat → List Char → Option (JsonValue × List Char))
    (members : Nat → List Char → List (String × JsonValue) → Option (JsonValue × List Char))
    (depth : Nat) (cs : List Char) (acc : List (String × JsonValue)) :
    Option (JsonValue × List Char) :=
  match skipSpace cs with
  | c :: r =>
    if c = '"' then
      match scanString r with
      | none => none
      | some (items, r1) =>
        match skipSpace r1 with
        | c1 :: r2 =>
          if c1 = ':' then
            match value depth r2 with
            | none => none
            | some (v, r3) =>
              match skipSpace r3 with
              | c2 :: r4 =>
                if c2 = ',' then members depth r4 (acc ++ [(String.mk (unquote items), v)])
                else if c2 = '\x7d' then
                  some (JsonValue.object (acc ++ [(String.mk (unquote items), v)]), r4)
                else none
              | [] => none
          else none
        | [] => none
    else none
  | [] => none

mutual

/-- One JSON value at the head of the text, and the rest; at most `fuel` nested calls. -/
def parseValue : Nat → Nat → List Char → Option (JsonValue × List Char)
  | 0, _, _ => none
  | fuel + 1, depth, cs => valueStep (parseElements fuel) (parseMembers fuel) depth cs

/-- The elements of an array after the opening bracket (the array is not empty). -/
def parseElements : Nat → Nat → List Char → List JsonValue → Option (JsonValue × List Char)
  | 0, _, _, _ => none
  | fuel + 1, depth, cs, acc => elementsStep (parseValue fuel) (parseElements fuel) depth cs acc

/-- The members of an object after the opening brace (the object is not empty). -/
def parseMembers : Nat → Nat → List Char → List (String × JsonValue) →
    Option (JsonValue × List Char)
  | 0, _, _, _ => none
  | fuel + 1, depth, cs, acc => membersStep (parseValue fuel) (parseMembers fuel) depth cs acc

end

/-- The JSON value a text denotes: one value, white space around it, nothing else.
`none` for a text that is not well-formed JSON.  The fuel, twice the length of the
text plus two, is enough for every text (`parse_of_fuel`). -/
def parse (body : String) : Option JsonValue :=
  match parseValue (2 * body.length + 2) 0 body.data with
  | some (v, rest) => if skipSpace rest = [] then some v else none
  | none => none

end json

/-! ## The decoded response and the struct decoding rules of encoding/json -/

/-- The anonymous struct of the field `Bitcoin`: one `float64` for each quote currency. -/
structure CoinGeckoBitcoin where
  USD : Float64
  EUR : Float64
  GBP : Float64
  JPY : Float64
  AUD : Float64
  CAD : Float64
  CHF : Float64
  CNY : Float64
  KRW : Float64
  RUB : Float64
deriving DecidableEq, Repr

/-- The struct `CoinGeckoResponse`. -/
structure CoinGeckoResponse where
  Bitcoin : CoinGeckoBitcoin
deriving DecidableEq, Repr

/-- The zero value `CoinGeckoResponse{}`. -/
def CoinGeckoResponse.zero : CoinGeckoResponse :=
  ⟨⟨Float64.zero, Float64.zero, Float64.zero, Float64.zero, Float64.zero,
    Float64.zero, Float64.zero, Float64.zero, Float64.zero, Float64.zero⟩⟩

/-- The field of the inner struct at a position, in declaration order (the zero value
beyond the last field). -/
def CoinGeckoBitcoin.field (b : CoinGeckoBitcoin) (i : Nat) : Float64 :=
  match i with
  | 0 => b.USD | 1 => b.EUR | 2 => b.GBP | 3 => b.JPY | 4 => b.AUD
  | 5 => b.CAD | 6 => b.CHF | 7 => b.CNY | 8 => b.KRW | 9 => b.RUB
  | _ => Float64.zero

/-- Store into the field of the inner struct at a position, in declaration order. -/
def CoinGeckoBitcoin.setField (b : CoinGeckoBitcoin) (i : Nat) (f : Float64) : CoinGeckoBitcoin :=
  match i with
  | 0 => { b with USD := f } | 1 => { b with EUR := f } | 2 => { b with GBP := f }
  | 3 => { b with JPY := f } | 4 => { b with AUD := f } | 5 => { b with CAD := f }
  | 6 => { b with CHF := f } | 7 => { b with CNY := f } | 8 => { b with KRW := f }
  | 9 => { b with RUB := f } | _ => b

namespace json

/-- The `json` tags of the fields of the inner struct, in declaration order. -/
def bitcoinFieldNames : List String :=
  ["usd", "eur", "gbp", "jpy", "aud", "cad", "chf", "cny", "krw", "rub"]

/-- The `json` tags of the fields of `CoinGeckoResponse`. -/
def responseFieldNames : List String := ["bitcoin"]

/-- Case folding of one character of an object key, as far as it decides equality with
an ASCII field name: ASCII letters fold to upper case, and the two non-ASCII characters
whose simple case folding is an ASCII letter (U+017F, U+212A) fold to `S` and `K`. -/
def foldRune (c : Char) : Char :=
  if 97 ≤ c.toNat ∧ c.toNat ≤ 122 then Char.ofNat (c.toNat - 32)
  else if c.toNat = 0x17F then 'S'
  else if c.toNat = 0x212A then 'K'
  else c

/-- Case folding of an object key. -/
def foldName (s : String) : String := String.mk (s.data.map foldRune)

/-- The struct field an object key stores into: the field whose tag is the key, else
the field whose folded tag is the folded key, else none (the member is skipped). -/
def lookupField (names : List String) (key : String) : Option Nat :=
  match names.indexOf? key with
  | some i => some i
  | none => (names.map foldName).indexOf? (foldName key)

/-- The errors of `json.Unmarshal`: the text is not well-formed JSON, or a JSON value
cannot be stored into the Go value at its place (`Value` describes the JSON value). -/
inductive JsonError where
  | syntaxError
  | unmarshalTypeError (value : String)
deriving DecidableEq, Repr

/-- The text of a decoding error.  The wording of the library is abridged. -/
def JsonError.Error : JsonError → String
  | JsonError.syntaxError => "invalid JSON text"
  | JsonError.unmarshalTypeError value => "json: cannot unmarshal " ++ value

/-- The literal of a number, as the type error quotes it. -/
def numberLiteral (neg : Bool) (intDigits fracDigits : List Char) (expNeg : Bool)
    (expDigits : List Char) : String :=
  String.mk ((if neg then ['-'] else []) ++ intDigits ++
    (if fracDigits = [] then [] else '.' :: fracDigits) ++
    (if expDigits = [] then [] else 'e' :: (if expNeg then ['-'] else []) ++ expDigits))

/-- Store a JSON value into a `float64`: `null` leaves it as it is, a number is
converted by `strconv.ParseFloat`, anything else is a type error. -/
def decodeFloat (v : JsonValue) (old : Float64) : Except JsonError Float64 :=
  match v with
  | JsonValue.null => Except.ok old
  | JsonValue.number neg ids fds en eds =>
    match strconv.parseParts neg ids fds en eds with
    | some f => Except.ok f
    | none => Except.error (JsonError.unmarshalTypeError ("number " ++ numberLiteral neg ids fds en eds))
  | JsonValue.bool _ => Except.error (JsonError.unmarshalTypeError "bool")
  | JsonValue.string _ => Except.error (JsonError.unmarshalTypeError "string")
  | JsonValue.array _ => Except.error (JsonError.unmarshalTypeError "array")
  | JsonValue.object _ => Except.error (JsonError.unmarshalTypeError "object")

/-- Store one member of the inner object: a key naming a field stores its value there,
any other key is skipped. -/
def decodeBitcoinMember (b : CoinGeckoBitcoin) (m : String × JsonValue) :
    Except JsonError CoinGeckoBitcoin :=
  match lookupField bitcoinFieldNames m.1 with
  | some i =>
    match decodeFloat m.2 (b.field i) with
    | Except.ok f => Except.ok (b.setField i f)
    | Except.error e => Except.error e
  | none => Except.ok b

/-- Store the members of an object in order; the first type error is the result. -/
def decodeMembers {α : Type} (step : α → String × JsonValue → Except JsonError α) :
    α → List (String × JsonValue) → Except JsonError α
  | a, [] => Except.ok a
  | a, m :: ms =>
    match step a m with
    | Except.ok a1 => decodeMembers step a1 ms
    | Except.error e => Except.error e

/-- Store a JSON value into the inner struct: `null` leaves it as it is, an object
stores its members, anything else is a type error. -/
def decodeBitcoin (v : JsonValue) (old : CoinGeckoBitcoin) : Except JsonError CoinGeckoBitcoin :=
  match v with
  | JsonValue.null => Except.ok old
  | JsonValue.object members => decodeMembers decodeBitcoinMember old members
  | JsonValue.bool _ => Except.error (JsonError.unmarshalTypeError "bool")
  | JsonValue.number _ _ _ _ _ => Except.error (JsonError.unmarshalTypeError "number")
  | JsonValue.string _ => Except.error (JsonError.unmarshalTypeError "string")
  | JsonValue.array _ => Except.error (JsonError.unmarshalTypeError "array")

/-- Store one member of the top-level object. -/
def decodeResponseMember (r : CoinGeckoResponse) (m : String × JsonValue) :
    Except JsonError CoinGeckoResponse :=
  match lookupField responseFieldNames m.1 with
  | some _ =>
    match decodeBitcoin m.2 r.Bitcoin with
    | Except.ok b => Except.ok { r with Bitcoin := b }
    | Except.error e => Except.error e
  | none => Except.ok r

/-- Store a JSON value into a `CoinGeckoResponse`. -/
def decodeResponse (v : JsonValue) (old : CoinGeckoResponse) : Except JsonError CoinGeckoResponse :=
  match v with
  | JsonValue.null => Except.ok old
  | JsonValue.object members => decodeMembers decodeResponseMember old members
  | JsonValue.bool _ => Except.error (JsonError.unmarshalTypeError "bool")
  | JsonValue.number _ _ _ _ _ => Except.error (JsonError.unmarshalTypeError "number")
  | JsonValue.string _ => Except.error (JsonError.unmarshalTypeError "string")
  | JsonValue.array _ => Except.error (JsonError.unmarshalTypeError "array")

/-- The call `json.Unmarshal(body, &response)`: the whole text is checked first, then
its value is stored into `response`; the result is the struct, or the error. -/
def Unmarshal (body : String) (response : CoinGeckoResponse) : Except JsonError CoinGeckoResponse :=
  match parse body with
  | none => Except.error JsonError.syntaxError
  | some v => decodeResponse v response

end json

/-! ## The world: network and clock -/

namespace http

/-- An HTTP response as the program uses it: the status code (never inspected) and
what reading the body stream to its end yields. -/
structure Response where
  StatusCode : Nat
  Body : Except GoError String

end http

/-- The outcome of the external effects of one tool call: the result of
`client.Get(url)` under the ten-second timeout, and the clock read by `time.Now()`. -/
structure World where
  get : Except GoError http.Response
  now : time.Time

/-- The call `io.ReadAll(resp.Body)`. -/
def io.ReadAll (body : Except GoError String) : Except GoError String := body

/-! ## The program -/

/-- The greeting tool: `fmt.Sprintf("Hello, %s! Welcome to the MCP Example.", Submitter)`
in one text block, and a nil error. -/
def hello_world (arguments : HelloArgs) : mcp_golang.ToolResponse × Option GoError :=
  (mcp_golang.NewToolResponse
    [mcp_golang.NewTextContent ("Hello, " ++ arguments.Submitter ++ "! Welcome to the MCP Example.")],
   none)

/-- The helper `get_price`: fetch, read, decode, select.  The pair is the Go result
`(float64, error)`, a nil error being `none`. -/
def get_price (w : World) (currency : String) : Float64 × Option GoError :=
  match w.get with
  | Except.error err => (Float64.zero, some ⟨"error making request to CoinGecko API: " ++ err.msg⟩)
  | Except.ok resp =>
    match io.ReadAll resp.Body with
    | Except.error err => (Float64.zero, some ⟨"error reading response body: " ++ err.msg⟩)
    | Except.ok body =>
      match json.Unmarshal body CoinGeckoResponse.zero with
      | Except.error err => (Float64.zero, some ⟨"error parsing JSON response: " ++ err.Error⟩)
      | Except.ok response =>
        if currency = "USD" ∨ currency = "usd" then (response.Bitcoin.USD, none)
        else if currency = "EUR" ∨ currency = "eur" then (response.Bitcoin.EUR, none)
        else if currency = "GBP" ∨ currency = "gbp" then (response.Bitcoin.GBP, none)
        else if currency = "JPY" ∨ currency = "jpy" then (response.Bitcoin.JPY, none)
        else if currency = "AUD" ∨ currency = "aud" then (response.Bitcoin.AUD, none)
        else if currency = "CAD" ∨ currency = "cad" then (response.Bitcoin.CAD, none)
        else if currency = "CHF" ∨ currency = "chf" then (response.Bitcoin.CHF, none)
        else if currency = "CNY" ∨ currency = "cny" then (response.Bitcoin.CNY, none)
        else if currency = "KRW" ∨ currency = "krw" then (response.Bitcoin.KRW, none)
        else if currency = "RUB" ∨ currency = "rub" then (response.Bitcoin.RUB, none)
        else (Float64.zero, some ⟨"unsupported currency: " ++ currency⟩)

/-- The tool `bitcoin_price`: an empty currency becomes `USD`; an error of `get_price`
is rendered into the text; the result always carries a nil error. -/
def bitcoin_price (w : World) (arguments : BitcoinPriceArguments) :
    mcp_golang.ToolResponse × Option GoError :=
  let currency := if arguments.Currency = "" then "USD" else arguments.Currency
  match get_price w currency with
  | (_, some err) =>
    (mcp_golang.NewToolResponse
      [mcp_golang.NewTextContent ("Error fetching Bitcoin price: " ++ err.msg)], none)
  | (price, none) =>
    (mcp_golang.NewToolResponse
      [mcp_golang.NewTextContent ("The current Bitcoin price is " ++ fmt.fixed2 price ++ " " ++
        currency ++ " (as of " ++ time.formatRFC1123 w.now ++ ")")], none)

/-! ## Sample worlds -/

/-- A clock reading: Monday 2 January 2006, 15:04:05 MST. -/
def sampleTime : time.Time :=
  { year := 2006, monthIndex := 0, day := 2, hour := 15, minute := 4, second := 5,
    weekday := 1, zoneName := "MST", zoneOffset := -25200 }

/-- A world in which the request succeeds and the body is read completely. -/
def worldWithBody (body : String) : World :=
  { get := Except.ok { StatusCode := 200, Body := Except.ok body }, now := sampleTime }

/-- A body with two quotes: `{"bitcoin":{"usd":65000.5,"eur":60000.1}}`. -/
def sampleBody : String := "\x7b\"bitcoin\":\x7b\"usd\":65000.5,\"eur\":60000.1\x7d\x7d"

/-- The error body of the API: `{"status":{"error_code":429}}`. -/
def apiErrorBody : String := "\x7b\"status\":\x7b\"error_code\":429\x7d\x7d"

/-- What `sampleBody` decodes to: 65000.5 and 60000.1 as float64 bits, zero elsewhere. -/
def sampleDecoded : CoinGeckoResponse :=
  ⟨⟨⟨0x40EFBD1000000000⟩, ⟨0x40ED4C0333333333⟩, Float64.zero, Float64.zero, Float64.zero,
    Float64.zero, Float64.zero, Float64.zero, Float64.zero, Float64.zero⟩⟩

/-- A world in which the request succeeds, the body is read completely, and the clock
reads `t`. -/
def worldAt (t : time.Time) (body : String) : World :=
  { get := Except.ok { StatusCode := 200, Body := Except.ok body }, now := t }

/-- A clock reading in a location without zone abbreviation: Wednesday 4 November 2026,
09:30:07, at the given offset in seconds east of UTC. -/
def unnamedZoneTime (offset : Int) : time.Time :=
  { year := 2026, monthIndex := 10, day := 4, hour := 9, minute := 30, second := 7,
    weekday := 3, zoneName := "", zoneOffset := offset }

/-- The price sentence `bitcoin_price` returns for `usd` in the sample world. -/
def samplePriceSentence : String :=
  "The current Bitcoin price is 65000.50 usd (as of Mon, 02 Jan 2006 15:04:05 MST)"

/-- The text `t` occurs inside the text `s`. -/
def occursIn (t s : String) : Prop := ∃ a b : String, s = a ++ t ++ b

/-- The twenty string literals of the `switch` in `get_price`. -/
def supportedSpellings : List String :=
  ["USD", "usd", "EUR", "eur", "GBP", "gbp", "JPY", "jpy", "AUD", "aud",
   "CAD", "cad", "CHF", "chf", "CNY", "cny", "KRW", "krw", "RUB", "rub"]

/-- The currency `bitcoin_price` passes to `get_price`. -/
def effectiveCurrency (arguments : BitcoinPriceArguments) : String :=
  if arguments.Currency = "" then "USD" else arguments.Currency

/-! ## Case spellings of a currency code -/

/-- The ten supported codes as the tool documents them, in upper case, in the order
of the fields of the decoded struct. -/
def supportedCodes : List String :=
  ["USD", "EUR", "GBP", "JPY", "AUD", "CAD", "CHF", "CNY", "KRW", "RUB"]

/-- The upper-casing of a string, letter by letter. -/
def upperCase (s : String) : String := String.mk (s.data.map Char.toUpper)

/-- The lower-casing of a string, letter by letter. -/
def lowerCase (s : String) : String := String.mk (s.data.map Char.toLower)

/-- The position of the field the `switch` of `get_price` selects for a currency string,
`none` in the `default` case. -/
def switchField (currency : String) : Option Nat :=
  if currency = "USD" ∨ currency = "usd" then some 0
  else if currency = "EUR" ∨ currency = "eur" then some 1
  else if currency = "GBP" ∨ currency = "gbp" then some 2
  else if currency = "JPY" ∨ currency = "jpy" then some 3
  else if currency = "AUD" ∨ currency = "aud" then some 4
  else if currency = "CAD" ∨ currency = "cad" then some 5
  else if currency = "CHF" ∨ currency = "chf" then some 6
  else if currency = "CNY" ∨ currency = "cny" then some 7
  else if currency = "KRW" ∨ currency = "krw" then some 8
  else if currency = "RUB" ∨ currency = "rub" then some 9
  else none

/-- All spellings of a word whose letters are, one by one, the given letter or the
character thirty-two code points above it. -/
def caseVariants : List Char → List (List Char)
  | [] => [[]]
  | x :: xs => (caseVariants xs).flatMap (fun t => [x :: t, Char.ofNat (x.toNat + 32) :: t])

/-- All case spellings of the ten supported codes: eighty strings. -/
def codeSpellings : List String :=
  supportedCodes.flatMap (fun code => (caseVariants code.data).map String.mk)

/-! ## Lenient decoding: which well-formed bodies are errors -/

namespace json

/-- A JSON value that cannot be stored into a `float64`: anything but `null` and a
number in range. -/
def floatConflict : JsonValue → Bool
  | JsonValue.null => false
  | JsonValue.number neg ids fds en eds => (strconv.parseParts neg ids fds en eds).isNone
  | _ => true

/-- A JSON value that cannot be stored into the inner struct: anything but `null` and an
object, or an object with a member that names a field and conflicts with `float64`. -/
def bitcoinConflict : JsonValue → Bool
  | JsonValue.null => false
  | JsonValue.object members =>
    members.any (fun m => (lookupField bitcoinFieldNames m.1).isSome && floatConflict m.2)
  | _ => true

/-- A JSON value that cannot be stored into `CoinGeckoResponse`: anything but `null` and
an object, or an object with a member that names the field `bitcoin` and conflicts
with the inner struct. -/
def typeConflict : JsonValue → Bool
  | JsonValue.null => false
  | JsonValue.object members =>
    members.any (fun m => (lookupField responseFieldNames m.1).isSome && bitcoinConflict m.2)
  | _ => true

/-- Whether an object has a member naming the given field of the inner struct. -/
def namesQuote (i : Nat) : JsonValue → Bool
  | JsonValue.object members => members.any (fun m => lookupField bitcoinFieldNames m.1 = some i)
  | _ => false

/-- Whether the text carries a quote for the given field: a member naming `bitcoin`
whose object has a member naming the field. -/
def hasQuote (i : Nat) : JsonValue → Bool
  | JsonValue.object members =>
    members.any (fun m => (lookupField responseFieldNames m.1).isSome && namesQuote i m.2)
  | _ => false

end json

/-! ## Readers that consume their text -/

namespace json

/-- A reader of values returns a rest no longer than its text. -/
def ShrinksValue (value : Nat → List Char → Option (JsonValue × List Char)) : Prop :=
  ∀ d cs v r, value d cs = some (v, r) → r.length ≤ cs.length

/-- A reader of elements or members returns a rest no longer than its text. -/
def ShrinksItems {α : Type} (items : Nat → List Char → List α → Option (JsonValue × List Char)) :
    Prop :=
  ∀ d cs acc v r, items d cs acc = some (v, r) → r.length ≤ cs.length

end json

/-! ## The reader does not depend on its fuel -/

namespace json

/-- Dropping white space does not lengthen a text. -/
theorem skipSpace_length_le (cs : List Char) : (skipSpace cs).length ≤ cs.length := by
  induction cs with
  | nil => simp [skipSpace]
  | cons c cs ih =>
    unfold skipSpace
    split_ifs
    · simp only [List.length_cons]; omega
    · simp

/-- What follows the first character after white space is shorter than the text. -/
theorem length_lt_of_skipSpace_eq_cons (cs r : List Char) (c : Char)
    (h : skipSpace cs = c :: r) : r.length < cs.length := by
  have := skipSpace_length_le cs
  rw [h] at this
  simp only [List.length_cons] at this
  omega

/-- What follows a run of digits is no longer than the text. -/
theorem takeDigits_length_le (cs : List Char) : (takeDigits cs).2.length ≤ cs.length := by
  induction cs with
  | nil => simp [takeDigits]
  | cons c cs ih =>
    unfold takeDigits
    split_ifs
    · simp only [List.length_cons]; omega
    · simp

/-- What follows a fraction part is no longer than the text. -/
theorem scanFrac_length_le (cs fr r : List Char) (h : scanFrac cs = some (fr, r)) :
    r.length ≤ cs.length := by
  unfold scanFrac at h
  split at h
  · rename_i c r0
    by_cases hc : c = '.'
    · by_cases hd : (takeDigits r0).1 = []
      · simp [hc, hd] at h
      · simp only [hc, hd, if_true, if_false, Option.some.injEq] at h
        have := takeDigits_length_le r0
        rw [h] at this
        simp only [List.length_cons] at this ⊢
        omega
    · simp only [hc, if_false, Option.some.injEq, Prod.mk.injEq] at h
      rw [← h.2]
  · simp only [Option.some.injEq, Prod.mk.injEq] at h
    rw [← h.2]

/-- What follows an exponent part is no longer than the text. -/
theorem scanExp_length_le (cs ed r : List Char) (en : Bool)
    (h : scanExp cs = some (en, ed, r)) : r.length ≤ cs.length := by
  unfold scanExp at h
  split at h
  · rename_i c r0
    by_cases hc : c = 'e' ∨ c = 'E'
    · simp only [hc, if_true] at h
      split_ifs at h with h1 h2
      · simp only [Option.some.injEq, Prod.mk.injEq] at h
        have := takeDigits_length_le r0.tail
        rw [h.2.2] at this
        simp only [List.length_cons]
        have := List.length_tail r0
        omega
      · simp only [Option.some.injEq, Prod.mk.injEq] at h
        have := takeDigits_length_le r0
        rw [h.2.2] at this
        simp only [List.length_cons]
        omega
    · simp only [hc, if_false, Option.some.injEq, Prod.mk.injEq] at h
      rw [← h.2.2]
  · simp only [Option.some.injEq, Prod.mk.injEq] at h
    rw [← h.2.2]

/-- What follows a number literal is no longer than the text. -/
theorem scanNumber_length_le (cs r : List Char) (v : JsonValue)
    (h : scanNumber cs = some (v, r)) : r.length ≤ cs.length := by
  unfold scanNumber at h
  simp only at h
  have htail : (if cs.head? = some '-' then cs.tail else cs).length ≤ cs.length := by
    split_ifs
    · have := List.length_tail cs; omega
    · exact le_refl _
  generalize (if cs.head? = some '-' then cs.tail else cs) = cs1 at h htail
  cases cs1 with
  | nil => simp at h
  | cons c r0 =>
    simp only at h
    by_cases hdig : isDigit c = true
    · simp only [hdig, not_true_eq_false, if_false] at h
      have hds : (if c = '0' then ([c], r0) else ((takeDigits r0).1.cons c, (takeDigits r0).2)).2.length
          ≤ r0.length := by
        split_ifs
        · exact le_refl _
        · exact takeDigits_length_le r0
      generalize (if c = '0' then ([c], r0) else ((takeDigits r0).1.cons c, (takeDigits r0).2)) = ds
        at h hds
      cases hf : scanFrac ds.2 with
      | none => rw [hf] at h; simp at h
      | some p =>
        obtain ⟨fr, r2⟩ := p
        rw [hf] at h
        simp only at h
        have h2 := scanFrac_length_le _ _ _ hf
        cases he : scanExp r2 with
        | none => rw [he] at h; simp at h
        | some q =>
          obtain ⟨en, ed, r3⟩ := q
          rw [he] at h
          simp only [Option.some.injEq, Prod.mk.injEq] at h
          have h3 := scanExp_length_le _ _ _ _ he
          rw [← h.2]
          simp only [List.length_cons] at htail
          omega
    · simp [hdig] at h

/-- What follows a literal is no longer than the text. -/
theorem dropLiteral_length_le (p cs r : List Char) (h : dropLiteral p cs = some r) :
    r.length ≤ cs.length := by
  induction p generalizing cs with
  | nil =>
    unfold dropLiteral at h
    simp only [Option.some.injEq] at h
    rw [h]
  | cons x xs ih =>
    cases cs with
    | nil => simp [dropLiteral] at h
    | cons c cs =>
      unfold dropLiteral at h
      split_ifs at h
      have := ih cs h
      simp only [List.length_cons]
      omega

/-- What follows a string literal is no longer than the text. -/
theorem scanString_length_le (n : Nat) (cs r : List Char) (items : List StrItem)
    (hn : cs.length ≤ n) (h : scanString cs = some (items, r)) : r.length ≤ cs.length := by
  induction n generalizing cs r items with
  | zero =>
    cases cs with
    | nil => simp [scanString] at h
    | cons c cs => simp at hn
  | succ n ih =>
    cases cs with
    | nil => simp [scanString] at h
    | cons c r0 =>
      simp only [List.length_cons] at hn ⊢
      unfold scanString at h
      by_cases hq : c = '"'
      · simp only [hq, if_true, Option.some.injEq, Prod.mk.injEq] at h
        rw [← h.2]; omega
      · simp only [hq, if_false] at h
        by_cases hb : c = '\\'
        · simp only [hb, if_true] at h
          cases r0 with
          | nil => simp at h
          | cons e r1 =>
            simp only at h
            simp only [List.length_cons] at hn ⊢
            by_cases hu : e = 'u'
            · simp only [hu, if_true] at h
              split at h
              · rename_i a b c2 d r2
                split at h
                · rename_i x y z w hx hy hz hw
                  cases hs : scanString r2 with
                  | none => rw [hs] at h; simp at h
                  | some p =>
                    obtain ⟨it, rest⟩ := p
                    rw [hs] at h
                    simp only [Option.some.injEq, Prod.mk.injEq] at h
                    have := ih r2 rest it (by simp only [List.length_cons] at hn; omega) hs
                    rw [← h.2]
                    simp only [List.length_cons]
                    omega
                · simp at h
              · simp at h
            · simp only [hu, if_false] at h
              split at h
              · simp at h
              · rename_i ch hch
                cases hs : scanString r1 with
                | none => rw [hs] at h; simp at h
                | some p =>
                  obtain ⟨it, rest⟩ := p
                  rw [hs] at h
                  simp only [Option.some.injEq, Prod.mk.injEq] at h
                  have := ih r1 rest it (by omega) hs
                  rw [← h.2]
                  omega
        · simp only [hb, if_false] at h
          split_ifs at h
          cases hs : scanString r0 with
          | none => rw [hs] at h; simp at h
          | some p =>
            obtain ⟨it, rest⟩ := p
            rw [hs] at h
            simp only [Option.some.injEq, Prod.mk.injEq] at h
            have := ih r0 rest it (by omega) hs
            rw [← h.2]
            omega

/-- A step of reading a value returns a rest no longer than its text. -/
theorem valueStep_shrinks
    (elements : Nat → List Char → List JsonValue → Option (JsonValue × List Char))
    (members : Nat → List Char → List (String × JsonValue) → Option (JsonValue × List Char))
    (he : ShrinksItems elements) (hm : ShrinksItems members) :
    ShrinksValue (valueStep elements members) := by
  intro d cs v rest h
  unfold valueStep at h
  cases hs : skipSpace cs with
  | nil => rw [hs] at h; simp at h
  | cons c r =>
    rw [hs] at h
    simp only at h
    have hr := length_lt_of_skipSpace_eq_cons cs r c hs
    split_ifs at h with h1 h2 h3 h4 h5 h6 h7 h8
    · cases hs2 : skipSpace r with
      | nil => rw [hs2] at h; simp at h
      | cons c1 r1 =>
        rw [hs2] at h
        simp only at h
        have hr1 := skipSpace_length_le r
        rw [hs2] at hr1
        split_ifs at h
        · simp only [Option.some.injEq, Prod.mk.injEq] at h
          rw [← h.2]
          simp only [List.length_cons] at hr1
          omega
        · have := hm _ _ _ _ _ h
          omega
    · cases hs2 : skipSpace r with
      | nil => rw [hs2] at h; simp at h
      | cons c1 r1 =>
        rw [hs2] at h
        simp only at h
        have hr1 := skipSpace_length_le r
        rw [hs2] at hr1
        split_ifs at h
        · simp only [Option.some.injEq, Prod.mk.injEq] at h
          rw [← h.2]
          simp only [List.length_cons] at hr1
          omega
        · have := he _ _ _ _ _ h
          omega
    · cases hss : scanString r with
      | none => rw [hss] at h; simp at h
      | some p =>
        obtain ⟨it, rest2⟩ := p
        rw [hss] at h
        simp only [Option.some.injEq, Prod.mk.injEq] at h
        have := scanString_length_le r.length r rest2 it (le_refl _) hss
        rw [← h.2]
        omega
    · simp only [Option.map_eq_some', Prod.mk.injEq] at h
      obtain ⟨a, ha, -, rfl⟩ := h
      have := dropLiteral_length_le _ _ _ ha
      omega
    · simp only [Option.map_eq_some', Prod.mk.injEq] at h
      obtain ⟨a, ha, -, rfl⟩ := h
      have := dropLiteral_length_le _ _ _ ha
      omega
    · simp only [Option.map_eq_some', Prod.mk.injEq] at h
      obtain ⟨a, ha, -, rfl⟩ := h
      have := dropLiteral_length_le _ _ _ ha
      omega
    · have := scanNumber_length_le _ _ _ h
      simp only [List.length_cons] at this
      omega

/-- A step of reading elements returns a rest no longer than its text. -/
theorem elementsStep_shrinks (value : Nat → List Char → Option (JsonValue × List Char))
    (elements : Nat → List Char → List JsonValue → Option (JsonValue × List Char))
    (hv : ShrinksValue value) (he : ShrinksItems elements) :
    ShrinksItems (elementsStep value elements) := by
  intro d cs acc v rest h
  unfold elementsStep at h
  cases hval : value d cs with
  | none => rw [hval] at h; simp at h
  | some p =>
    obtain ⟨v1, r⟩ := p
    rw [hval] at h
    simp only at h
    have h1 := hv _ _ _ _ hval
    cases hs : skipSpace r with
    | nil => rw [hs] at h; simp at h
    | cons c r1 =>
      rw [hs] at h
      simp only at h
      have h2 := length_lt_of_skipSpace_eq_cons r r1 c hs
      split_ifs at h
      · have := he _ _ _ _ _ h
        omega
      · simp only [Option.some.injEq, Prod.mk.injEq] at h
        rw [← h.2]
        omega

/-- A step of reading members returns a rest no longer than its text. -/
theorem membersStep_shrinks (value : Nat → List Char → Option (JsonValue × List Char))
    (members : Nat → List Char → List (String × JsonValue) → Option (JsonValue × List Char))
    (hv : ShrinksValue value) (hm : ShrinksItems members) :
    ShrinksItems (membersStep value members) := by
  intro d cs acc v rest h
  unfold membersStep at h
  cases hs : skipSpace cs with
  | nil => rw [hs] at h; simp at h
  | cons c r =>
    rw [hs] at h
    simp only at h
    have h0 := length_lt_of_skipSpace_eq_cons cs r c hs
    split_ifs at h
    cases hss : scanString r with
    | none => rw [hss] at h; simp at h
    | some p =>
      obtain ⟨items, r1⟩ := p
      rw [hss] at h
      simp only at h
      have h1 := scanString_length_le r.length r r1 items (le_refl _) hss
      cases hs1 : skipSpace r1 with
      | nil => rw [hs1] at h; simp at h
      | cons c1 r2 =>
        rw [hs1] at h
        simp only at h
        have h2 := length_lt_of_skipSpace_eq_cons r1 r2 c1 hs1
        split_ifs at h
        cases hval : value d r2 with
        | none => rw [hval] at h; simp at h
        | some q =>
          obtain ⟨v1, r3⟩ := q
          rw [hval] at h
          simp only at h
          have h3 := hv _ _ _ _ hval
          cases hs3 : skipSpace r3 with
          | nil => rw [hs3] at h; simp at h
          | cons c2 r4 =>
            rw [hs3] at h
            simp only at h
            have h4 := length_lt_of_skipSpace_eq_cons r3 r4 c2 hs3
            split_ifs at h
            · have := hm _ _ _ _ _ h
              omega
            · simp only [Option.some.injEq, Prod.mk.injEq] at h
              rw [← h.2]
              omega

/-- A step of reading a value gives the same result with any readers that agree, on
shorter texts, with the given ones wherever these succeed. -/
theorem valueStep_agree
    (e1 e2 : Nat → List Char → List JsonValue → Option (JsonValue × List Char))
    (m1 m2 : Nat → List Char → List (String × JsonValue) → Option (JsonValue × List Char))
    (d : Nat) (cs : List Char) (res : JsonValue × List Char)
    (he : ∀ d1 cs1 acc r, cs1.length < cs.length → e1 d1 cs1 acc = some r → e2 d1 cs1 acc = some r)
    (hm : ∀ d1 cs1 acc r, cs1.length < cs.length → m1 d1 cs1 acc = some r → m2 d1 cs1 acc = some r)
    (h : valueStep e1 m1 d cs = some res) : valueStep e2 m2 d cs = some res := by
  unfold valueStep at h ⊢
  cases hs : skipSpace cs with
  | nil => rw [hs] at h; simp at h
  | cons c r =>
    rw [hs] at h
    simp only at h ⊢
    have hr := length_lt_of_skipSpace_eq_cons cs r c hs
    split_ifs at h ⊢ with h1 h2 h3 h4 h5 h6 h7 h8
    · cases hs2 : skipSpace r with
      | nil => rw [hs2] at h; simp at h
      | cons c1 r1 =>
        rw [hs2] at h
        simp only at h ⊢
        have hr1 := skipSpace_length_le r
        rw [hs2] at hr1
        split_ifs at h ⊢
        · exact h
        · exact hm _ _ _ _ (by omega) h
    · cases hs2 : skipSpace r with
      | nil => rw [hs2] at h; simp at h
      | cons c1 r1 =>
        rw [hs2] at h
        simp only at h ⊢
        have hr1 := skipSpace_length_le r
        rw [hs2] at hr1
        split_ifs at h ⊢
        · exact h
        · exact he _ _ _ _ (by omega) h
    · exact h
    · exact h
    · exact h
    · exact h
    · exact h

/-- A step of reading elements gives the same result with any readers that agree with
the given ones wherever these succeed, the value reader on texts no longer and the
element reader on shorter texts. -/
theorem elementsStep_agree (v1 v2 : Nat → List Char → Option (JsonValue × List Char))
    (e1 e2 : Nat → List Char → List JsonValue → Option (JsonValue × List Char))
    (d : Nat) (cs : List Char) (acc : List JsonValue) (res : JsonValue × List Char)
    (hs1 : ShrinksValue v1)
    (hv : ∀ d1 cs1 r, cs1.length ≤ cs.length → v1 d1 cs1 = some r → v2 d1 cs1 = some r)
    (he : ∀ d1 cs1 a r, cs1.length < cs.length → e1 d1 cs1 a = some r → e2 d1 cs1 a = some r)
    (h : elementsStep v1 e1 d cs acc = some res) : elementsStep v2 e2 d cs acc = some res := by
  unfold elementsStep at h ⊢
  cases hval : v1 d cs with
  | none => rw [hval] at h; simp at h
  | some p =>
    obtain ⟨v, r⟩ := p
    rw [hval] at h
    rw [hv _ _ _ (le_refl _) hval]
    simp only at h ⊢
    have h1 := hs1 _ _ _ _ hval
    cases hs : skipSpace r with
    | nil => rw [hs] at h; simp at h
    | cons c r1 =>
      rw [hs] at h
      simp only at h ⊢
      have h2 := length_lt_of_skipSpace_eq_cons r r1 c hs
      split_ifs at h ⊢
      · exact he _ _ _ _ (by omega) h
      · exact h

/-- A step of reading members gives the same result with any readers that agree, on
shorter texts, with the given ones wherever these succeed. -/
theorem membersStep_agree (v1 v2 : Nat → List Char → Option (JsonValue × List Char))
    (m1 m2 : Nat → List Char → List (String × JsonValue) → Option (JsonValue × List Char))
    (d : Nat) (cs : List Char) (acc : List (String × JsonValue)) (res : JsonValue × List Char)
    (hs1 : ShrinksValue v1)
    (hv : ∀ d1 cs1 r, cs1.length ≤ cs.length → v1 d1 cs1 = some r → v2 d1 cs1 = some r)
    (hm : ∀ d1 cs1 a r, cs1.length < cs.length → m1 d1 cs1 a = some r → m2 d1 cs1 a = some r)
    (h : membersStep v1 m1 d cs acc = some res) : membersStep v2 m2 d cs acc = some res := by
  unfold membersStep at h ⊢
  cases hs : skipSpace cs with
  | nil => rw [hs] at h; simp at h
  | cons c r =>
    rw [hs] at h
    simp only at h ⊢
    have h0 := length_lt_of_skipSpace_eq_cons cs r c hs
    split_ifs at h ⊢
    cases hss : scanString r with
    | none => rw [hss] at h; simp at h
    | some p =>
      obtain ⟨items, r1⟩ := p
      rw [hss] at h
      simp only at h ⊢
      have h1 := scanString_length_le r.length r r1 items (le_refl _) hss
      cases hsp : skipSpace r1 with
      | nil => rw [hsp] at h; simp at h
      | cons c1 r2 =>
        rw [hsp] at h
        simp only at h ⊢
        have h2 := length_lt_of_skipSpace_eq_cons r1 r2 c1 hsp
        split_ifs at h ⊢
        cases hval : v1 d r2 with
        | none => rw [hval] at h; simp at h
        | some q =>
          obtain ⟨v, r3⟩ := q
          rw [hval] at h
          rw [hv _ _ _ (by omega) hval]
          simp only at h ⊢
          have h3 := hs1 _ _ _ _ hval
          cases hs3 : skipSpace r3 with
          | nil => rw [hs3] at h; simp at h
          | cons c2 r4 =>
            rw [hs3] at h
            simp only at h ⊢
            have h4 := length_lt_of_skipSpace_eq_cons r3 r4 c2 hs3
            split_ifs at h ⊢
            · exact hm _ _ _ _ (by omega) h
            · exact h

/-- The readers return a rest no longer than their text. -/
theorem parse_shrinks (fuel : Nat) :
    ShrinksValue (parseValue fuel) ∧ ShrinksItems (parseElements fuel) ∧
      ShrinksItems (parseMembers fuel) := by
  induction fuel with
  | zero =>
    refine ⟨?_, ?_, ?_⟩
    · intro d cs v r h; simp [parseValue] at h
    · intro d cs acc v r h; simp [parseElements] at h
    · intro d cs acc v r h; simp [parseMembers] at h
  | succ n ih =>
    obtain ⟨hv, he, hm⟩ := ih
    refine ⟨?_, ?_, ?_⟩
    · intro d cs v r h
      rw [parseValue] at h
      exact valueStep_shrinks _ _ he hm d cs v r h
    · intro d cs acc v r h
      rw [parseElements] at h
      exact elementsStep_shrinks _ _ hv he d cs acc v r h
    · intro d cs acc v r h
      rw [parseMembers] at h
      exact membersStep_shrinks _ _ hv hm d cs acc v r h

/-- One more unit of fuel does not change a result. -/
theorem parse_fuel_succ (fuel : Nat) :
    (∀ d cs r, parseValue fuel d cs = some r → parseValue (fuel + 1) d cs = some r) ∧
    (∀ d cs acc r, parseElements fuel d cs acc = some r →
      parseElements (fuel + 1) d cs acc = some r) ∧
    (∀ d cs acc r, parseMembers fuel d cs acc = some r →
      parseMembers (fuel + 1) d cs acc = some r) := by
  induction fuel with
  | zero =>
    refine ⟨?_, ?_, ?_⟩
    · intro d cs r h; simp [parseValue] at h
    · intro d cs acc r h; simp [parseElements] at h
    · intro d cs acc r h; simp [parseMembers] at h
  | succ n ih =>
    obtain ⟨hv, he, hm⟩ := ih
    refine ⟨?_, ?_, ?_⟩
    · intro d cs r h
      rw [parseValue] at h ⊢
      exact valueStep_agree _ _ _ _ d cs r (fun d1 cs1 acc r1 _ => he d1 cs1 acc r1)
        (fun d1 cs1 acc r1 _ => hm d1 cs1 acc r1) h
    · intro d cs acc r h
      rw [parseElements] at h ⊢
      exact elementsStep_agree _ _ _ _ d cs acc r (parse_shrinks n).1
        (fun d1 cs1 r1 _ => hv d1 cs1 r1) (fun d1 cs1 a r1 _ => he d1 cs1 a r1) h
    · intro d cs acc r h
      rw [parseMembers] at h ⊢
      exact membersStep_agree _ _ _ _ d cs acc r (parse_shrinks n).1
        (fun d1 cs1 r1 _ => hv d1 cs1 r1) (fun d1 cs1 a r1 _ => hm d1 cs1 a r1) h

/-- More fuel does not change a result. -/
theorem parse_fuel_le (f g : Nat) (hfg : f ≤ g) :
    (∀ d cs r, parseValue f d cs = some r → parseValue g d cs = some r) ∧
    (∀ d cs acc r, parseElements f d cs acc = some r → parseElements g d cs acc = some r) ∧
    (∀ d cs acc r, parseMembers f d cs acc = some r → parseMembers g d cs acc = some r) := by
  induction g with
  | zero =>
    have : f = 0 := by omega
    subst this
    exact ⟨fun _ _ _ h => h, fun _ _ _ _ h => h, fun _ _ _ _ h => h⟩
  | succ n ih =>
    by_cases hf : f = n + 1
    · subst hf
      exact ⟨fun _ _ _ h => h, fun _ _ _ _ h => h, fun _ _ _ _ h => h⟩
    · obtain ⟨hv, he, hm⟩ := ih (by omega)
      obtain ⟨sv, se, sm⟩ := parse_fuel_succ n
      exact ⟨fun d cs r h => sv d cs r (hv d cs r h),
        fun d cs acc r h => se d cs acc r (he d cs acc r h),
        fun d cs acc r h => sm d cs acc r (hm d cs acc r h)⟩

/-- Fuel proportional to the length of the text is enough: whatever a reader returns
with some fuel, it returns with twice the length of the text plus one (a value) or
plus two (elements, members). -/
theorem parse_fuel_enough (fuel : Nat) :
    (∀ d cs r, parseValue fuel d cs = some r → parseValue (2 * cs.length + 1) d cs = some r) ∧
    (∀ d cs acc r, parseElements fuel d cs acc = some r →
      parseElements (2 * cs.length + 2) d cs acc = some r) ∧
    (∀ d cs acc r, parseMembers fuel d cs acc = some r →
      parseMembers (2 * cs.length + 2) d cs acc = some r) := by
  induction fuel with
  | zero =>
    refine ⟨?_, ?_, ?_⟩
    · intro d cs r h; simp [parseValue] at h
    · intro d cs acc r h; simp [parseElements] at h
    · intro d cs acc r h; simp [parseMembers] at h
  | succ n ih =>
    obtain ⟨hv, he, hm⟩ := ih
    refine ⟨?_, ?_, ?_⟩
    · intro d cs r h
      rw [parseValue] at h ⊢
      refine valueStep_agree _ _ _ _ d cs r ?_ ?_ h
      · intro d1 cs1 acc r1 hlt h1
        exact (parse_fuel_le _ _ (by omega)).2.1 _ _ _ _ (he d1 cs1 acc r1 h1)
      · intro d1 cs1 acc r1 hlt h1
        exact (parse_fuel_le _ _ (by omega)).2.2 _ _ _ _ (hm d1 cs1 acc r1 h1)
    · intro d cs acc r h
      rw [parseElements] at h ⊢
      refine elementsStep_agree _ _ _ _ d cs acc r (parse_shrinks n).1 ?_ ?_ h
      · intro d1 cs1 r1 hle h1
        exact (parse_fuel_le _ _ (by omega)).1 _ _ _ (hv d1 cs1 r1 h1)
      · intro d1 cs1 a r1 hlt h1
        exact (parse_fuel_le _ _ (by omega)).2.1 _ _ _ _ (he d1 cs1 a r1 h1)
    · intro d cs acc r h
      rw [parseMembers] at h ⊢
      refine membersStep_agree _ _ _ _ d cs acc r (parse_shrinks n).1 ?_ ?_ h
      · intro d1 cs1 r1 hle h1
        exact (parse_fuel_le _ _ (by omega)).1 _ _ _ (hv d1 cs1 r1 h1)
      · intro d1 cs1 a r1 hlt h1
        exact (parse_fuel_le _ _ (by omega)).2.2 _ _ _ _ (hm d1 cs1 a r1 h1)

/-- The value `parse` returns does not depend on the fuel it gives the reader: a text
that some amount of fuel reads completely is read by `parse`, to the same value. -/
theorem parse_of_fuel (body : String) (fuel : Nat) (v : JsonValue) (rest : List Char)
    (h : parseValue fuel 0 body.data = some (v, rest)) (hrest : skipSpace rest = []) :
    parse body = some v := by
  have h1 := (parse_fuel_enough fuel).1 0 body.data (v, rest) h
  have hlen : body.length = body.data.length := rfl
  have h2 := (parse_fuel_le (2 * body.data.length + 1) (2 * body.length + 2)
    (by omega)).1 0 body.data (v, rest) h1
  unfold parse
  rw [h2]
  simp [hrest]

end json

/-! ## Lemmas on the program -/

/-- After a successful fetch, read and decode, `get_price` is its `switch`. -/
theorem get_price_of_decoded (w : World) (resp : http.Response) (body : String)
    (r : CoinGeckoResponse) (c : String)
    (hget : w.get = Except.ok resp) (hread : io.ReadAll resp.Body = Except.ok body)
    (hjson : json.Unmarshal body CoinGeckoResponse.zero = Except.ok r) :
    get_price w c =
      if c = "USD" ∨ c = "usd" then (r.Bitcoin.USD, none)
      else if c = "EUR" ∨ c = "eur" then (r.Bitcoin.EUR, none)
      else if c = "GBP" ∨ c = "gbp" then (r.Bitcoin.GBP, none)
      else if c = "JPY" ∨ c = "jpy" then (r.Bitcoin.JPY, none)
      else if c = "AUD" ∨ c = "aud" then (r.Bitcoin.AUD, none)
      else if c = "CAD" ∨ c = "cad" then (r.Bitcoin.CAD, none)
      else if c = "CHF" ∨ c = "chf" then (r.Bitcoin.CHF, none)
      else if c = "CNY" ∨ c = "cny" then (r.Bitcoin.CNY, none)
      else if c = "KRW" ∨ c = "krw" then (r.Bitcoin.KRW, none)
      else if c = "RUB" ∨ c = "rub" then (r.Bitcoin.RUB, none)
      else (Float64.zero, some ⟨"unsupported currency: " ++ c⟩) := by
  unfold get_price
  rw [hget]
  simp only
  rw [hread]
  simp only
  rw [hjson]

/-- A failed decode is reported whatever the currency is. -/
theorem get_price_of_decode_error (w : World) (resp : http.Response) (body : String)
    (e : json.JsonError) (c : String)
    (hget : w.get = Except.ok resp) (hread : io.ReadAll resp.Body = Except.ok body)
    (hjson : json.Unmarshal body CoinGeckoResponse.zero = Except.error e) :
    get_price w c = (Float64.zero, some ⟨"error parsing JSON response: " ++ e.Error⟩) := by
  unfold get_price
  rw [hget]
  simp only
  rw [hread]
  simp only
  rw [hjson]

/-- The response of `bitcoin_price` when `get_price` fails. -/
theorem bitcoin_price_of_error (w : World) (arguments : BitcoinPriceArguments) (p : Float64)
    (e : GoError) (h : get_price w (effectiveCurrency arguments) = (p, some e)) :
    bitcoin_price w arguments =
      (mcp_golang.NewToolResponse
        [mcp_golang.NewTextContent ("Error fetching Bitcoin price: " ++ e.msg)], none) := by
  unfold bitcoin_price
  unfold effectiveCurrency at h
  simp only [h]

/-- The response of `bitcoin_price` when `get_price` succeeds. -/
theorem bitcoin_price_of_price (w : World) (arguments : BitcoinPriceArguments) (p : Float64)
    (h : get_price w (effectiveCurrency arguments) = (p, none)) :
    bitcoin_price w arguments =
      (mcp_golang.NewToolResponse
        [mcp_golang.NewTextContent ("The current Bitcoin price is " ++ fmt.fixed2 p ++ " " ++
          effectiveCurrency arguments ++ " (as of " ++ time.formatRFC1123 w.now ++ ")")], none) := by
  unfold bitcoin_price
  unfold effectiveCurrency at h
  simp only [h, effectiveCurrency]

/-- A text that begins with `E` is not a text that begins with `T`. -/
theorem error_text_ne_price_text (a b : String) :
    "Error fetching Bitcoin price:" ++ a ≠ "The current Bitcoin price is " ++ b := by
  intro h
  have h2 := congrArg String.data h
  simp only [String.data_append] at h2
  have h3 := congrArg List.head? h2
  simp at h3

/-- The error text, split after the colon. -/
theorem error_text_split (m : String) :
    "Error fetching Bitcoin price: " ++ m = "Error fetching Bitcoin price:" ++ (" " ++ m) := by
  rw [← String.append_assoc]
  rfl

/-- A number below one hundred is written with exactly two digits. -/
theorem decimalDigits_two :
    ∀ n, n < 100 →
      decimalDigits 2 n = String.mk [Char.ofNat (48 + n / 10), Char.ofNat (48 + n % 10)] := by
  decide

/-- The `%.2f` text of a finite float ends in a point and exactly two digits. -/
theorem fmt.fixed2_two_decimals (f : Float64) (h : f.expField ≠ 2047) :
    ∃ (whole : String) (k : Nat), k < 100 ∧
      fmt.fixed2 f = whole ++ "." ++
        String.mk [Char.ofNat (48 + k / 10), Char.ofNat (48 + k % 10)] := by
  unfold fmt.fixed2
  simp only [h, if_false]
  exact ⟨_, _, Nat.mod_lt _ (by decide), by rw [decimalDigits_two _ (Nat.mod_lt _ (by decide))]⟩

/-! ## Lemmas on case spellings -/

/-- After a successful fetch, read and decode, `get_price` returns the field its
`switch` selects, or the `unsupported currency` error. -/
theorem get_price_of_switchField (w : World) (resp : http.Response) (body : String)
    (r : CoinGeckoResponse) (c : String)
    (hget : w.get = Except.ok resp) (hread : io.ReadAll resp.Body = Except.ok body)
    (hjson : json.Unmarshal body CoinGeckoResponse.zero = Except.ok r) :
    get_price w c =
      match switchField c with
      | some i => (r.Bitcoin.field i, none)
      | none => (Float64.zero, some ⟨"unsupported currency: " ++ c⟩) := by
  rw [get_price_of_decoded w resp body r c hget hread hjson]
  unfold switchField
  by_cases h0 : c = "USD" ∨ c = "usd"
  · simp only [if_pos h0, CoinGeckoBitcoin.field]
  simp only [if_neg h0]
  by_cases h1 : c = "EUR" ∨ c = "eur"
  · simp only [if_pos h1, CoinGeckoBitcoin.field]
  simp only [if_neg h1]
  by_cases h2 : c = "GBP" ∨ c = "gbp"
  · simp only [if_pos h2, CoinGeckoBitcoin.field]
  simp only [if_neg h2]
  by_cases h3 : c = "JPY" ∨ c = "jpy"
  · simp only [if_pos h3, CoinGeckoBitcoin.field]
  simp only [if_neg h3]
  by_cases h4 : c = "AUD" ∨ c = "aud"
  · simp only [if_pos h4, CoinGeckoBitcoin.field]
  simp only [if_neg h4]
  by_cases h5 : c = "CAD" ∨ c = "cad"
  · simp only [if_pos h5, CoinGeckoBitcoin.field]
  simp only [if_neg h5]
  by_cases h6 : c = "CHF" ∨ c = "chf"
  · simp only [if_pos h6, CoinGeckoBitcoin.field]
  simp only [if_neg h6]
  by_cases h7 : c = "CNY" ∨ c = "cny"
  · simp only [if_pos h7, CoinGeckoBitcoin.field]
  simp only [if_neg h7]
  by_cases h8 : c = "KRW" ∨ c = "krw"
  · simp only [if_pos h8, CoinGeckoBitcoin.field]
  simp only [if_neg h8]
  by_cases h9 : c = "RUB" ∨ c = "rub"
  · simp only [if_pos h9, CoinGeckoBitcoin.field]
  simp only [if_neg h9]

/-- A character whose upper-casing is `x` is `x` or the character 32 above it. -/
theorem char_of_toUpper_eq (a x : Char) (h : a.toUpper = x) :
    a = x ∨ a = Char.ofNat (x.toNat + 32) := by
  unfold Char.toUpper at h
  simp only at h
  split_ifs at h with hr
  · right
    obtain ⟨h1, h2⟩ := hr
    have ha : a = Char.ofNat a.toNat := (Char.ofNat_toNat a).symm
    generalize a.toNat = n at h h1 h2 ha
    subst ha
    subst h
    interval_cases n <;> decide
  · left
    exact h

/-- A word whose upper-casing is `u` is one of the case spellings of `u`. -/
theorem mem_caseVariants_of_map_toUpper (u l : List Char) (h : l.map Char.toUpper = u) :
    l ∈ caseVariants u := by
  induction u generalizing l with
  | nil =>
    rw [List.map_eq_nil_iff] at h
    simp [caseVariants, h]
  | cons x xs ih =>
    rw [List.map_eq_cons_iff] at h
    obtain ⟨a, t, rfl, ha, ht⟩ := h
    simp only [caseVariants, List.mem_flatMap, List.mem_cons, List.mem_singleton, List.cons.injEq,
      List.not_mem_nil, or_false]
    refine ⟨t, ih t ht, ?_⟩
    rcases char_of_toUpper_eq a x ha with h1 | h1
    · left; exact ⟨h1, rfl⟩
    · right; exact ⟨h1, rfl⟩

/-- A string whose upper-casing is a supported code is one of the eighty spellings. -/
theorem mem_codeSpellings (c : String) (h : upperCase c ∈ supportedCodes) :
    c ∈ codeSpellings := by
  unfold codeSpellings
  rw [List.mem_flatMap]
  refine ⟨upperCase c, h, ?_⟩
  rw [List.mem_map]
  exact ⟨c.data, mem_caseVariants_of_map_toUpper _ _ rfl, rfl⟩

/-- The `switch` on the eighty spellings: the all-upper and the all-lower spelling select
the field of the code, every other spelling falls to `default`. -/
theorem switchField_on_codeSpellings :
    ∀ c ∈ codeSpellings,
      (c = upperCase c ∨ c = lowerCase c →
        switchField c = switchField (upperCase c) ∧ (switchField c).isSome = true) ∧
      (c ≠ upperCase c → c ≠ lowerCase c → switchField c = none) := by
  decide

/-! ## Lemmas on the decoder -/

/-- Storing into one field leaves every other field as it is. -/
theorem CoinGeckoBitcoin.field_setField_of_ne (b : CoinGeckoBitcoin) (i j : Nat) (f : Float64)
    (h : i ≠ j) : (b.setField j f).field i = b.field i := by
  unfold CoinGeckoBitcoin.setField
  split <;> (unfold CoinGeckoBitcoin.field; split <;> first | rfl | omega)

/-- Members are stored without error exactly when each of them is, if that does not
depend on what was stored before. -/
theorem json.decodeMembers_isOk {α : Type} (step : α → String × json.JsonValue → Except json.JsonError α)
    (bad : String × json.JsonValue → Bool)
    (hstep : ∀ a m, (step a m).isOk = !bad m) (a : α) (ms : List (String × json.JsonValue)) :
    (json.decodeMembers step a ms).isOk = !ms.any bad := by
  induction ms generalizing a with
  | nil => rfl
  | cons m ms ih =>
    have hm := hstep a m
    unfold json.decodeMembers
    cases hs : step a m with
    | ok a1 =>
      rw [hs] at hm
      simp only [ih a1, List.any_cons]
      have : bad m = false := by simpa [Except.isOk, Except.toBool] using hm.symm
      rw [this]
      rfl
    | error e =>
      rw [hs] at hm
      have : bad m = true := by simpa [Except.isOk, Except.toBool] using hm.symm
      simp [this, Except.isOk, Except.toBool]

/-- A property of the stored value that every successful step keeps is kept by storing
all members. -/
theorem json.decodeMembers_invariant {α : Type}
    (step : α → String × json.JsonValue → Except json.JsonError α) (inv : α → Prop)
    (ms : List (String × json.JsonValue))
    (hstep : ∀ a a1 m, m ∈ ms → step a m = Except.ok a1 → inv a → inv a1)
    (a a1 : α) (h : json.decodeMembers step a ms = Except.ok a1) (ha : inv a) : inv a1 := by
  induction ms generalizing a with
  | nil =>
    unfold json.decodeMembers at h
    cases h
    exact ha
  | cons m ms ih =>
    unfold json.decodeMembers at h
    cases hs : step a m with
    | ok a2 =>
      rw [hs] at h
      exact ih (fun a a1 m1 hm => hstep a a1 m1 (List.mem_cons_of_mem _ hm)) a2 h
        (hstep a a2 m (List.mem_cons_self _ _) hs ha)
    | error e =>
      rw [hs] at h
      cases h

/-- Storing into a `float64` fails exactly on a conflicting value. -/
theorem json.decodeFloat_isOk (v : json.JsonValue) (old : Float64) :
    (json.decodeFloat v old).isOk = !json.floatConflict v := by
  cases v with
  | number neg ids fds en eds =>
    simp only [json.decodeFloat, json.floatConflict]
    cases hp : strconv.parseParts neg ids fds en eds <;> rfl
  | _ => rfl

/-- Storing one member of the inner object fails exactly when it names a field and its
value conflicts. -/
theorem json.decodeBitcoinMember_isOk (b : CoinGeckoBitcoin) (m : String × json.JsonValue) :
    (json.decodeBitcoinMember b m).isOk =
      !((json.lookupField json.bitcoinFieldNames m.1).isSome && json.floatConflict m.2) := by
  unfold json.decodeBitcoinMember
  cases hl : json.lookupField json.bitcoinFieldNames m.1 with
  | none => rfl
  | some i =>
    have hf := json.decodeFloat_isOk m.2 (b.field i)
    simp only
    cases hd : json.decodeFloat m.2 (b.field i) with
    | ok f => rw [hd] at hf; simpa [Except.isOk, Except.toBool] using hf
    | error e => rw [hd] at hf; simpa [Except.isOk, Except.toBool] using hf

/-- Storing into the inner struct fails exactly on a conflicting value. -/
theorem json.decodeBitcoin_isOk (v : json.JsonValue) (old : CoinGeckoBitcoin) :
    (json.decodeBitcoin v old).isOk = !json.bitcoinConflict v := by
  cases v with
  | object members =>
    exact json.decodeMembers_isOk json.decodeBitcoinMember _ json.decodeBitcoinMember_isOk old members
  | _ => rfl

/-- Storing one member of the top-level object fails exactly when it names `bitcoin` and
its value conflicts. -/
theorem json.decodeResponseMember_isOk (r : CoinGeckoResponse) (m : String × json.JsonValue) :
    (json.decodeResponseMember r m).isOk =
      !((json.lookupField json.responseFieldNames m.1).isSome && json.bitcoinConflict m.2) := by
  unfold json.decodeResponseMember
  cases hl : json.lookupField json.responseFieldNames m.1 with
  | none => rfl
  | some i =>
    have hf := json.decodeBitcoin_isOk m.2 r.Bitcoin
    simp only
    cases hd : json.decodeBitcoin m.2 r.Bitcoin with
    | ok f => rw [hd] at hf; simpa [Except.isOk, Except.toBool] using hf
    | error e => rw [hd] at hf; simpa [Except.isOk, Except.toBool] using hf

/-- Storing into `CoinGeckoResponse` fails exactly on a conflicting value. -/
theorem json.decodeResponse_isOk (v : json.JsonValue) (old : CoinGeckoResponse) :
    (json.decodeResponse v old).isOk = !json.typeConflict v := by
  cases v with
  | object members =>
    exact json.decodeMembers_isOk json.decodeResponseMember _ json.decodeResponseMember_isOk old
      members
  | _ => rfl

/-- A field that no member of the inner object names keeps its value. -/
theorem json.decodeBitcoin_field (i : Nat) (v : json.JsonValue) (old b : CoinGeckoBitcoin)
    (hq : json.namesQuote i v = false) (h : json.decodeBitcoin v old = Except.ok b) :
    b.field i = old.field i := by
  cases v with
  | object members =>
    unfold json.decodeBitcoin at h
    unfold json.namesQuote at hq
    rw [List.any_eq_false] at hq
    refine json.decodeMembers_invariant json.decodeBitcoinMember
      (fun x => x.field i = old.field i) members ?_ old b h rfl
    intro a a1 m hm hs ha
    have hne := hq m hm
    unfold json.decodeBitcoinMember at hs
    cases hl : json.lookupField json.bitcoinFieldNames m.1 with
    | none =>
      rw [hl] at hs
      cases hs
      exact ha
    | some j =>
      rw [hl] at hs hne
      simp only at hs
      cases hd : json.decodeFloat m.2 (a.field j) with
      | ok f =>
        rw [hd] at hs
        cases hs
        rw [CoinGeckoBitcoin.field_setField_of_ne a i j f]
        · exact ha
        · intro hij
          apply hne
          rw [hij]
          simp
      | error e =>
        rw [hd] at hs
        cases hs
  | null =>
    unfold json.decodeBitcoin at h
    cases h
    rfl
  | _ =>
    unfold json.decodeBitcoin at h
    cases h

/-- A field for which the text carries no quote keeps its value. -/
theorem json.decodeResponse_field (i : Nat) (v : json.JsonValue) (old r : CoinGeckoResponse)
    (hq : json.hasQuote i v = false) (h : json.decodeResponse v old = Except.ok r) :
    r.Bitcoin.field i = old.Bitcoin.field i := by
  cases v with
  | object members =>
    unfold json.decodeResponse at h
    unfold json.hasQuote at hq
    rw [List.any_eq_false] at hq
    refine json.decodeMembers_invariant json.decodeResponseMember
      (fun x => x.Bitcoin.field i = old.Bitcoin.field i) members ?_ old r h rfl
    intro a a1 m hm hs ha
    have hne := hq m hm
    unfold json.decodeResponseMember at hs
    cases hl : json.lookupField json.responseFieldNames m.1 with
    | none =>
      rw [hl] at hs
      cases hs
      exact ha
    | some j =>
      rw [hl] at hs hne
      simp only at hs
      cases hd : json.decodeBitcoin m.2 a.Bitcoin with
      | ok b =>
        rw [hd] at hs
        cases hs
        simp only [Option.isSome_some, Bool.true_and, Bool.not_eq_true] at hne
        rw [json.decodeBitcoin_field i m.2 a.Bitcoin b hne hd]
        exact ha
      | error e =>
        rw [hd] at hs
        cases hs
  | null =>
    unfold json.decodeResponse at h
    cases h
    rfl
  | _ =>
    unfold json.decodeResponse at h
    cases h

/-- Every field of the zero value is zero. -/
theorem CoinGeckoResponse.zero_field (i : Nat) :
    CoinGeckoResponse.zero.Bitcoin.field i = Float64.zero := by
  unfold CoinGeckoBitcoin.field
  split <;> rfl

/-- The `switch` selects a field for each of its twenty literals. -/
theorem switchField_isSome_of_supported :
    ∀ c ∈ supportedSpellings, (switchField c).isSome = true := by
  decide

/-! ## Decoded prices are finite -/

/-- The highest set bit of a positive number brackets it. -/
theorem strconv.floorLog2Aux_spec (fuel n : Nat) (hn : 0 < n) (hf : n ≤ fuel) :
    2 ^ strconv.floorLog2Aux fuel n ≤ n ∧ n < 2 ^ (strconv.floorLog2Aux fuel n + 1) := by
  induction fuel generalizing n with
  | zero => omega
  | succ k ih =>
    unfold strconv.floorLog2Aux
    split_ifs with h2
    · have : n = 1 := by omega
      subst this
      decide
    · have hk := ih (n / 2) (by omega) (by omega)
      obtain ⟨h1, h3⟩ := hk
      rw [pow_succ, pow_succ]
      constructor <;> omega

/-- The highest set bit of a positive number brackets it. -/
theorem strconv.floorLog2_spec (n : Nat) (hn : 0 < n) :
    2 ^ strconv.floorLog2 n ≤ n ∧ n < 2 ^ (strconv.floorLog2 n + 1) :=
  strconv.floorLog2Aux_spec n n hn (le_refl n)

/-- A quotient below `2 ^ 53` rounds to at most `2 ^ 53`. -/
theorem roundHalfEven_le (x y : Nat) (hy : 0 < y) (h : x < y * 2 ^ 53) :
    roundHalfEven x y ≤ 2 ^ 53 := by
  have hq : x / y < 2 ^ 53 := (Nat.div_lt_iff_lt_mul hy).mpr (by rw [Nat.mul_comm]; exact h)
  unfold roundHalfEven
  simp only
  split_ifs <;> omega

/-- The bits `roundToBits` returns are those of a finite float: the exponent field is
below 2047. -/
theorem strconv.roundToBits_lt (n d b : Nat) (hn : 0 < n) (hd : 0 < d)
    (h : strconv.roundToBits n d = some b) : b < 2047 * 2 ^ 52 := by
  unfold strconv.roundToBits at h
  simp only at h
  obtain ⟨-, hn2⟩ := strconv.floorLog2_spec n hn
  obtain ⟨hd1, -⟩ := strconv.floorLog2_spec d hd
  generalize strconv.floorLog2 n = ln at h hn2
  generalize strconv.floorLog2 d = ld at h hd1
  generalize hlgdef : (if n * 2 ^ ld < d * 2 ^ ln then (ln : Int) - ld - 1 else (ln : Int) - ld) = lg
    at h
  generalize hedef : max (lg - 52) (-1074) = e at h
  generalize hmdef : (if 0 ≤ e then roundHalfEven n (d * 2 ^ e.toNat)
    else roundHalfEven (n * 2 ^ (-e).toNat) d) = m at h
  generalize hm1def : (if m = 2 ^ 53 then 2 ^ 52 else m) = m1 at h
  generalize he1def : (if m = 2 ^ 53 then e + 1 else e) = e1 at h
  have hK : ∃ t : Nat, n * 2 ^ ld < d * 2 ^ t ∧ lg + 1 = (t : Int) - ld := by
    by_cases hb : n * 2 ^ ld < d * 2 ^ ln
    · refine ⟨ln, hb, ?_⟩
      rw [← hlgdef]
      simp only [hb, if_true]
      omega
    · refine ⟨ln + 1, ?_, ?_⟩
      · calc n * 2 ^ ld < 2 ^ (ln + 1) * 2 ^ ld := Nat.mul_lt_mul_of_pos_right hn2 (by positivity)
          _ ≤ 2 ^ (ln + 1) * d := Nat.mul_le_mul_left _ hd1
          _ = d * 2 ^ (ln + 1) := Nat.mul_comm _ _
      · rw [← hlgdef]
        simp only [hb, if_false]
        push_cast
        omega
  obtain ⟨t, ht, hlg⟩ := hK
  have he : lg - 52 ≤ e := by rw [← hedef]; exact le_max_left _ _
  have hm : m ≤ 2 ^ 53 := by
    by_cases h0 : 0 ≤ e
    · rw [← hmdef]
      simp only [h0, if_true]
      apply roundHalfEven_le _ _ (by positivity)
      have hk : ((e.toNat : Nat) : Int) = e := Int.toNat_of_nonneg h0
      have hle : t ≤ e.toNat + ld + 53 := by omega
      have h1 : d * 2 ^ t ≤ d * 2 ^ (e.toNat + ld + 53) :=
        Nat.mul_le_mul_left _ (Nat.pow_le_pow_right (by decide) hle)
      have h2 : d * 2 ^ (e.toNat + ld + 53) = d * 2 ^ e.toNat * 2 ^ 53 * 2 ^ ld := by
        rw [pow_add, pow_add]; ring
      have h3 : n * 2 ^ ld < d * 2 ^ e.toNat * 2 ^ 53 * 2 ^ ld := by
        rw [← h2]; exact lt_of_lt_of_le ht h1
      exact Nat.lt_of_mul_lt_mul_right h3
    · rw [← hmdef]
      simp only [h0, if_false]
      apply roundHalfEven_le _ _ hd
      have hk : (((-e).toNat : Nat) : Int) = -e := Int.toNat_of_nonneg (by omega)
      have hle : t + (-e).toNat ≤ ld + 53 := by omega
      have h1 : n * 2 ^ ld * 2 ^ (-e).toNat < d * 2 ^ t * 2 ^ (-e).toNat :=
        Nat.mul_lt_mul_of_pos_right ht (by positivity)
      have h2 : d * 2 ^ t * 2 ^ (-e).toNat ≤ d * 2 ^ (ld + 53) := by
        rw [Nat.mul_assoc, ← pow_add]
        exact Nat.mul_le_mul_left _ (Nat.pow_le_pow_right (by decide) hle)
      have h3 : n * 2 ^ (-e).toNat * 2 ^ ld < d * 2 ^ 53 * 2 ^ ld := by
        have e1 : n * 2 ^ (-e).toNat * 2 ^ ld = n * 2 ^ ld * 2 ^ (-e).toNat := by ring
        have e2 : d * 2 ^ 53 * 2 ^ ld = d * 2 ^ (ld + 53) := by rw [pow_add]; ring
        rw [e1, e2]
        exact lt_of_lt_of_le h1 h2
      exact Nat.lt_of_mul_lt_mul_right h3
  have hm1 : m1 < 2 ^ 53 := by
    rw [← hm1def]
    split_ifs with hx
    · decide
    · omega
  split_ifs at h with ha hb
  · simp only [Option.some.injEq] at h
    omega
  · simp only [Option.some.injEq] at h
    have h5 : (e1 + 1075).toNat ≤ 2046 := by omega
    have h6 : (e1 + 1075).toNat * 2 ^ 52 ≤ 2046 * 2 ^ 52 := Nat.mul_le_mul_right _ h5
    omega

/-- A float with exponent field below 2047 and either sign. -/
theorem Float64.expField_of_lt (signBit b : Nat) (hs : signBit = 2 ^ 63 ∨ signBit = 0)
    (hb : b < 2047 * 2 ^ 52) : (Float64.mk (signBit + b)).expField ≠ 2047 := by
  unfold Float64.expField
  simp only
  rcases hs with hs | hs <;> (subst hs; norm_num at hb ⊢; omega)

/-- The result of `ParseFloat` is finite. -/
theorem strconv.parseParts_finite (neg : Bool) (ids fds : List Char) (en : Bool)
    (eds : List Char) (f : Float64) (h : strconv.parseParts neg ids fds en eds = some f) :
    f.expField ≠ 2047 := by
  unfold strconv.parseParts at h
  simp only at h
  have hs : (if neg = true then 2 ^ 63 else 0) = 2 ^ 63 ∨ (if neg = true then 2 ^ 63 else 0) = 0 := by
    cases neg <;> simp
  generalize (if neg = true then 2 ^ 63 else 0) = signBit at h hs
  generalize strconv.digitsToNat (ids ++ fds) = mant at h
  generalize strconv.clippedExp eds = e at h
  by_cases h0 : mant = 0
  · simp only [h0, if_true, Option.some.injEq] at h
    rw [← h]
    have := Float64.expField_of_lt signBit 0 hs (by decide)
    simpa using this
  · simp only [h0, if_false] at h
    have hpos : 0 < mant := Nat.pos_of_ne_zero h0
    generalize hp : (if en = true then (mant, 10 ^ (e + fds.length))
      else if fds.length ≤ e then (mant * 10 ^ (e - fds.length), 1)
      else (mant, 10 ^ (fds.length - e))) = p at h
    have hnd2 : 0 < p.1 ∧ 0 < p.2 := by
      rw [← hp]
      split_ifs <;> (constructor <;> simp only <;> positivity)
    obtain ⟨n, d⟩ := p
    simp only at h hnd2
    cases hr : strconv.roundToBits n d with
    | none => rw [hr] at h; simp at h
    | some b =>
      rw [hr] at h
      simp only [Option.some.injEq] at h
      rw [← h]
      exact Float64.expField_of_lt signBit b hs (strconv.roundToBits_lt n d b hnd2.1 hnd2.2 hr)

/-- Storing a finite float keeps every field finite. -/
theorem CoinGeckoBitcoin.setField_finite (b : CoinGeckoBitcoin) (j : Nat) (f : Float64)
    (hb : ∀ i, (b.field i).expField ≠ 2047) (hf : f.expField ≠ 2047) :
    ∀ i, ((b.setField j f).field i).expField ≠ 2047 := by
  intro i
  by_cases hij : i = j
  · subst hij
    have hself : (b.setField i f).field i = f ∨ (b.setField i f).field i = b.field i := by
      unfold CoinGeckoBitcoin.setField
      split <;> simp [CoinGeckoBitcoin.field]
    rcases hself with h | h
    · rw [h]; exact hf
    · rw [h]; exact hb i
  · rw [CoinGeckoBitcoin.field_setField_of_ne b i j f hij]
    exact hb i

/-- A float decoded from a JSON value is finite if the float it replaces is. -/
theorem json.decodeFloat_finite (v : json.JsonValue) (old f : Float64)
    (hold : old.expField ≠ 2047) (h : json.decodeFloat v old = Except.ok f) :
    f.expField ≠ 2047 := by
  cases v with
  | null =>
    simp only [json.decodeFloat, Except.ok.injEq] at h
    rw [← h]; exact hold
  | number neg ids fds en eds =>
    simp only [json.decodeFloat] at h
    cases hp : strconv.parseParts neg ids fds en eds with
    | none => rw [hp] at h; simp at h
    | some g =>
      rw [hp] at h
      simp only [Except.ok.injEq] at h
      rw [← h]
      exact strconv.parseParts_finite neg ids fds en eds g hp
  | bool b => simp [json.decodeFloat] at h
  | string s => simp [json.decodeFloat] at h
  | array items => simp [json.decodeFloat] at h
  | object members => simp [json.decodeFloat] at h

/-- Decoding into the inner struct keeps every field finite. -/
theorem json.decodeBitcoin_finite (v : json.JsonValue) (old b : CoinGeckoBitcoin)
    (hold : ∀ i, (old.field i).expField ≠ 2047) (h : json.decodeBitcoin v old = Except.ok b) :
    ∀ i, (b.field i).expField ≠ 2047 := by
  cases v with
  | object members =>
    unfold json.decodeBitcoin at h
    refine json.decodeMembers_invariant json.decodeBitcoinMember
      (fun x => ∀ i, (x.field i).expField ≠ 2047) members ?_ old b h hold
    intro a a1 m _ hs ha
    unfold json.decodeBitcoinMember at hs
    cases hl : json.lookupField json.bitcoinFieldNames m.1 with
    | none =>
      rw [hl] at hs
      cases hs
      exact ha
    | some j =>
      rw [hl] at hs
      simp only at hs
      cases hd : json.decodeFloat m.2 (a.field j) with
      | ok f =>
        rw [hd] at hs
        cases hs
        exact CoinGeckoBitcoin.setField_finite a j f ha
          (json.decodeFloat_finite m.2 (a.field j) f (ha j) hd)
      | error e =>
        rw [hd] at hs
        cases hs
  | null =>
    unfold json.decodeBitcoin at h
    cases h
    exact hold
  | _ =>
    unfold json.decodeBitcoin at h
    cases h

/-- Decoding into `CoinGeckoResponse` keeps every field finite. -/
theorem json.decodeResponse_finite (v : json.JsonValue) (old r : CoinGeckoResponse)
    (hold : ∀ i, (old.Bitcoin.field i).expField ≠ 2047)
    (h : json.decodeResponse v old = Except.ok r) :
    ∀ i, (r.Bitcoin.field i).expField ≠ 2047 := by
  cases v with
  | object members =>
    unfold json.decodeResponse at h
    refine json.decodeMembers_invariant json.decodeResponseMember
      (fun x => ∀ i, (x.Bitcoin.field i).expField ≠ 2047) members ?_ old r h hold
    intro a a1 m _ hs ha
    unfold json.decodeResponseMember at hs
    cases hl : json.lookupField json.responseFieldNames m.1 with
    | none =>
      rw [hl] at hs
      cases hs
      exact ha
    | some j =>
      rw [hl] at hs
      simp only at hs
      cases hd : json.decodeBitcoin m.2 a.Bitcoin with
      | ok b =>
        rw [hd] at hs
        cases hs
        exact json.decodeBitcoin_finite m.2 a.Bitcoin b ha hd
      | error e =>
        rw [hd] at hs
        cases hs
  | null =>
    unfold json.decodeResponse at h
    cases h
    exact hold
  | _ =>
    unfold json.decodeResponse at h
    cases h

/-- Every field of a response decoded by `json.Unmarshal` from the zero value is finite. -/
theorem json.Unmarshal_finite (body : String) (r : CoinGeckoResponse)
    (h : json.Unmarshal body CoinGeckoResponse.zero = Except.ok r) :
    ∀ i, (r.Bitcoin.field i).expField ≠ 2047 := by
  unfold json.Unmarshal at h
  cases hp : json.parse body with
  | none => rw [hp] at h; cases h
  | some v =>
    rw [hp] at h
    refine json.decodeResponse_finite v CoinGeckoResponse.zero r ?_ h
    intro i
    rw [CoinGeckoResponse.zero_field]
    decide

/-- A price `get_price` returns without error is a finite float. -/
theorem get_price_finite (w : World) (c : String) (p : Float64)
    (h : get_price w c = (p, none)) : p.expField ≠ 2047 := by
  cases hget : w.get with
  | error err =>
    unfold get_price at h
    rw [hget] at h
    simp at h
  | ok resp =>
    cases hread : io.ReadAll resp.Body with
    | error err =>
      unfold get_price at h
      rw [hget] at h
      simp only at h
      rw [hread] at h
      simp at h
    | ok body =>
      cases hjson : json.Unmarshal body CoinGeckoResponse.zero with
      | error err =>
        rw [get_price_of_decode_error w resp body err c hget hread hjson] at h
        simp at h
      | ok r =>
        rw [get_price_of_switchField w resp body r c hget hread hjson] at h
        cases hsw : switchField c with
        | none => rw [hsw] at h; simp at h
        | some i =>
          rw [hsw] at h
          simp only [Prod.mk.injEq, and_true] at h
          rw [← h]
          exact json.Unmarshal_finite body r hjson i

/-! ## Occurrences of the price sentence in an error text -/

/-- An occurrence of a text that begins with `The current Bitcoin price is ` in an error
text lies within the message that follows `Error fetching Bitcoin price: `. -/
theorem occursIn_error_text (r m : String)
    (h : occursIn ("The current Bitcoin price is " ++ r) ("Error fetching Bitcoin price: " ++ m)) :
    occursIn ("The current Bitcoin price is " ++ r) m := by
  obtain ⟨a, b, hab⟩ := h
  have hd := congrArg String.data hab
  simp only [String.data_append, List.append_assoc] at hd
  rw [List.append_eq_append_iff] at hd
  rcases hd with ⟨a1, ha1, hm⟩ | ⟨c1, hc1, hm⟩
  · refine ⟨String.mk a1, b, ?_⟩
    apply String.ext
    simp only [String.data_append, List.append_assoc]
    exact hm
  · cases c1 with
    | nil =>
      refine ⟨"", b, ?_⟩
      apply String.ext
      simp only [String.data_append, List.append_assoc]
      simpa using hm.symm
    | cons x xs =>
      exfalso
      have hx : x = 'T' := by
        have := congrArg List.head? hm
        simpa using this.symm
      subst hx
      have hmem : 'T' ∈ a.data ++ 'T' :: xs := by simp
      rw [← hc1] at hmem
      revert hmem
      decide

/-! ## The claims -/

/-- C1: when the request, the body read and the JSON decode succeed with decoded
response `r`, `get_price` returns no error and exactly the field of `r.Bitcoin` for
each of the twenty spellings, the upper-case and the lower-case spelling of a code
giving the same value. -/
theorem get_price_returns_field (w : World) (resp : http.Response) (body : String)
    (r : CoinGeckoResponse)
    (hget : w.get = Except.ok resp) (hread : io.ReadAll resp.Body = Except.ok body)
    (hjson : json.Unmarshal body CoinGeckoResponse.zero = Except.ok r) :
    (get_price w "USD" = (r.Bitcoin.USD, none) ∧ get_price w "usd" = (r.Bitcoin.USD, none)) ∧
    (get_price w "EUR" = (r.Bitcoin.EUR, none) ∧ get_price w "eur" = (r.Bitcoin.EUR, none)) ∧
    (get_price w "GBP" = (r.Bitcoin.GBP, none) ∧ get_price w "gbp" = (r.Bitcoin.GBP, none)) ∧
    (get_price w "JPY" = (r.Bitcoin.JPY, none) ∧ get_price w "jpy" = (r.Bitcoin.JPY, none)) ∧
    (get_price w "AUD" = (r.Bitcoin.AUD, none) ∧ get_price w "aud" = (r.Bitcoin.AUD, none)) ∧
    (get_price w "CAD" = (r.Bitcoin.CAD, none) ∧ get_price w "cad" = (r.Bitcoin.CAD, none)) ∧
    (get_price w "CHF" = (r.Bitcoin.CHF, none) ∧ get_price w "chf" = (r.Bitcoin.CHF, none)) ∧
    (get_price w "CNY" = (r.Bitcoin.CNY, none) ∧ get_price w "cny" = (r.Bitcoin.CNY, none)) ∧
    (get_price w "KRW" = (r.Bitcoin.KRW, none) ∧ get_price w "krw" = (r.Bitcoin.KRW, none)) ∧
    (get_price w "RUB" = (r.Bitcoin.RUB, none) ∧ get_price w "rub" = (r.Bitcoin.RUB, none)) := by
  simp [get_price_of_decoded w resp body r _ hget hread hjson]

/-- C1 at the sample body: the dollar and euro quotes come back bit for bit. -/
theorem get_price_returns_field_witness :
    get_price (worldWithBody sampleBody) "USD" = (⟨0x40EFBD1000000000⟩, none) ∧
    get_price (worldWithBody sampleBody) "eur" = (⟨0x40ED4C0333333333⟩, none) :=
  have h := get_price_returns_field (worldWithBody sampleBody)
    { StatusCode := 200, Body := Except.ok sampleBody } sampleBody sampleDecoded rfl rfl rfl
  ⟨h.1.1, h.2.1.2⟩

/-- C2, as the code has it: for a string `c` whose upper-casing is one of the ten codes,
when fetch and decode succeed, `get_price c` returns the price of the upper-case code
and no error if `c` is written all in upper case or all in lower case, and price 0 with
the error `unsupported currency: c` for every other (mixed-case) spelling. -/
theorem get_price_case_spellings (w : World) (resp : http.Response) (body : String)
    (r : CoinGeckoResponse) (c : String)
    (hget : w.get = Except.ok resp) (hread : io.ReadAll resp.Body = Except.ok body)
    (hjson : json.Unmarshal body CoinGeckoResponse.zero = Except.ok r)
    (hc : upperCase c ∈ supportedCodes) :
    (c = upperCase c ∨ c = lowerCase c →
      get_price w c = get_price w (upperCase c) ∧ (get_price w c).2 = none) ∧
    (c ≠ upperCase c → c ≠ lowerCase c →
      get_price w c = (Float64.zero, some ⟨"unsupported currency: " ++ c⟩)) := by
  obtain ⟨h1, h2⟩ := switchField_on_codeSpellings c (mem_codeSpellings c hc)
  rw [get_price_of_switchField w resp body r c hget hread hjson,
    get_price_of_switchField w resp body r (upperCase c) hget hread hjson]
  constructor
  · intro hs
    obtain ⟨h3, h4⟩ := h1 hs
    rw [← h3]
    obtain ⟨i, hi⟩ := Option.isSome_iff_exists.mp h4
    rw [hi]
    exact ⟨rfl, rfl⟩
  · intro hu hl
    rw [h2 hu hl]

/-- C2 amended, at the sample body: `usd` is priced like `USD`, `Usd` is rejected. -/
theorem get_price_case_spellings_witness :
    (get_price (worldWithBody sampleBody) "usd" = get_price (worldWithBody sampleBody) "USD" ∧
      (get_price (worldWithBody sampleBody) "usd").2 = none) ∧
    get_price (worldWithBody sampleBody) "Usd" =
      (Float64.zero, some ⟨"unsupported currency: Usd"⟩) :=
  ⟨(get_price_case_spellings (worldWithBody sampleBody)
      { StatusCode := 200, Body := Except.ok sampleBody } sampleBody sampleDecoded "usd"
      rfl rfl rfl (by decide)).1 (by decide),
   (get_price_case_spellings (worldWithBody sampleBody)
      { StatusCode := 200, Body := Except.ok sampleBody } sampleBody sampleDecoded "Usd"
      rfl rfl rfl (by decide)).2 (by decide) (by decide)⟩

/-- C2 as stated fails: the upper-casing of `Usd` and of `eUr` is a supported code, fetch
and decode succeed, `get_price` prices `USD` and `EUR`, and yet it rejects `Usd` and
`eUr` as unsupported. -/
theorem get_price_mixed_case_rejected :
    upperCase "Usd" = "USD" ∧ upperCase "eUr" = "EUR" ∧
    get_price (worldWithBody sampleBody) "USD" = (⟨0x40EFBD1000000000⟩, none) ∧
    get_price (worldWithBody sampleBody) "Usd" =
      (Float64.zero, some ⟨"unsupported currency: Usd"⟩) ∧
    get_price (worldWithBody sampleBody) "EUR" = (⟨0x40ED4C0333333333⟩, none) ∧
    get_price (worldWithBody sampleBody) "eUr" =
      (Float64.zero, some ⟨"unsupported currency: eUr"⟩) := by
  decide

/-- C3: when the request, the body read and the JSON decode succeed, a currency string
that is none of the spellings of the ten supported codes yields price 0 and the error
`unsupported currency: ` followed by the string itself. -/
theorem get_price_unsupported (w : World) (resp : http.Response) (body : String)
    (r : CoinGeckoResponse) (c : String)
    (hget : w.get = Except.ok resp) (hread : io.ReadAll resp.Body = Except.ok body)
    (hjson : json.Unmarshal body CoinGeckoResponse.zero = Except.ok r)
    (hc : c ∉ supportedSpellings) :
    get_price w c = (Float64.zero, some ⟨"unsupported currency: " ++ c⟩) := by
  rw [get_price_of_decoded w resp body r c hget hread hjson]
  simp only [supportedSpellings, List.mem_cons, List.mem_singleton, List.not_mem_nil,
    or_false, not_or] at hc
  obtain ⟨h1, h2, h3, h4, h5, h6, h7, h8, h9, h10, h11, h12, h13, h14, h15, h16, h17, h18,
    h19, h20⟩ := hc
  simp only [h1, h2, h3, h4, h5, h6, h7, h8, h9, h10, h11, h12, h13, h14, h15, h16, h17, h18,
    h19, h20, or_self, if_false]

/-- C3 at the sample body and the strings `XYZ`, the empty string and `BTC`. -/
theorem get_price_unsupported_witness :
    get_price (worldWithBody sampleBody) "XYZ" =
        (Float64.zero, some ⟨"unsupported currency: XYZ"⟩) ∧
    get_price (worldWithBody sampleBody) "" = (Float64.zero, some ⟨"unsupported currency: "⟩) ∧
    get_price (worldWithBody sampleBody) "BTC" =
        (Float64.zero, some ⟨"unsupported currency: BTC"⟩) :=
  ⟨get_price_unsupported (worldWithBody sampleBody)
      { StatusCode := 200, Body := Except.ok sampleBody } sampleBody sampleDecoded "XYZ"
      rfl rfl rfl (by decide),
   get_price_unsupported (worldWithBody sampleBody)
      { StatusCode := 200, Body := Except.ok sampleBody } sampleBody sampleDecoded ""
      rfl rfl rfl (by decide),
   get_price_unsupported (worldWithBody sampleBody)
      { StatusCode := 200, Body := Except.ok sampleBody } sampleBody sampleDecoded "BTC"
      rfl rfl rfl (by decide)⟩

/-- C4, as the code has it: for a well-formed JSON body and a supported currency,
`get_price` returns the parse error exactly when a value has the wrong JSON type for its
place (the top-level value, a `bitcoin` member, or a member naming a currency field);
a body that only lacks the `bitcoin` key or the field of the requested currency is
decoded without error, and `get_price` returns price 0 and no error for a currency the
body carries no quote for. -/
theorem get_price_wellformed_body (w : World) (resp : http.Response) (body : String)
    (v : json.JsonValue) (c : String)
    (hget : w.get = Except.ok resp) (hread : io.ReadAll resp.Body = Except.ok body)
    (hv : json.parse body = some v) (hc : c ∈ supportedSpellings) :
    (json.typeConflict v = true →
      ∃ e : json.JsonError,
        get_price w c = (Float64.zero, some ⟨"error parsing JSON response: " ++ e.Error⟩)) ∧
    (json.typeConflict v = false →
      (get_price w c).2 = none ∧
      ∀ i : Nat, switchField c = some i → json.hasQuote i v = false →
        get_price w c = (Float64.zero, none)) := by
  have hu : json.Unmarshal body CoinGeckoResponse.zero =
      json.decodeResponse v CoinGeckoResponse.zero := by
    unfold json.Unmarshal
    rw [hv]
  have hok := json.decodeResponse_isOk v CoinGeckoResponse.zero
  constructor
  · intro hconf
    rw [hconf] at hok
    cases hd : json.decodeResponse v CoinGeckoResponse.zero with
    | ok r =>
      rw [hd] at hok
      simp [Except.isOk, Except.toBool] at hok
    | error e =>
      exact ⟨e, get_price_of_decode_error w resp body e c hget hread (hu.trans hd)⟩
  · intro hconf
    rw [hconf] at hok
    cases hd : json.decodeResponse v CoinGeckoResponse.zero with
    | error e =>
      rw [hd] at hok
      simp [Except.isOk, Except.toBool] at hok
    | ok r =>
      have hg := get_price_of_switchField w resp body r c hget hread (hu.trans hd)
      obtain ⟨j, hj⟩ := Option.isSome_iff_exists.mp (switchField_isSome_of_supported c hc)
      rw [hj] at hg
      simp only at hg
      refine ⟨by rw [hg], ?_⟩
      intro i hi hq
      rw [hj] at hi
      cases hi
      rw [hg, json.decodeResponse_field j v CoinGeckoResponse.zero r hq hd,
        CoinGeckoResponse.zero_field]

/-- C4 amended, at the bodies `{}` and `{"status":{"error_code":429}}` and at the top-level
array `[]`. -/
theorem get_price_wellformed_body_witness :
    get_price (worldWithBody "\x7b\x7d") "USD" = (Float64.zero, none) ∧
    get_price (worldWithBody apiErrorBody) "eur" = (Float64.zero, none) ∧
    ∃ e : json.JsonError, get_price (worldWithBody "[]") "USD" =
      (Float64.zero, some ⟨"error parsing JSON response: " ++ e.Error⟩) :=
  ⟨((get_price_wellformed_body (worldWithBody "\x7b\x7d")
      { StatusCode := 200, Body := Except.ok "\x7b\x7d" } "\x7b\x7d" (json.JsonValue.object [])
      "USD" rfl rfl rfl (by decide)).2 rfl).2 0 rfl rfl,
   ((get_price_wellformed_body (worldWithBody apiErrorBody)
      { StatusCode := 200, Body := Except.ok apiErrorBody } apiErrorBody
      (json.JsonValue.object [("status", json.JsonValue.object
        [("error_code", json.JsonValue.number false ['4', '2', '9'] [] false [])])])
      "eur" rfl rfl rfl (by decide)).2 rfl).2 1 rfl rfl,
   (get_price_wellformed_body (worldWithBody "[]")
      { StatusCode := 200, Body := Except.ok "[]" } "[]" (json.JsonValue.array [])
      "USD" rfl rfl rfl (by decide)).1 rfl⟩

/-- C4 as stated fails: the bodies `{}` and `{"status":{"error_code":429}}` are well-formed
JSON without a `bitcoin` key, the sample body is a `bitcoin` object without a `gbp`
field, and for each `get_price` returns price 0 and no error. -/
theorem get_price_shape_mismatch_accepted :
    (json.parse "\x7b\x7d").isSome = true ∧
    get_price (worldWithBody "\x7b\x7d") "USD" = (Float64.zero, none) ∧
    (json.parse apiErrorBody).isSome = true ∧
    get_price (worldWithBody apiErrorBody) "USD" = (Float64.zero, none) ∧
    (json.parse sampleBody).isSome = true ∧
    get_price (worldWithBody sampleBody) "GBP" = (Float64.zero, none) := by
  decide

/-- C5: `bitcoin_price` never fails: in every world and for every argument the error
is nil and the response holds exactly one content block, a text block. -/
theorem bitcoin_price_never_fails (w : World) (arguments : BitcoinPriceArguments) :
    (bitcoin_price w arguments).2 = none ∧
    ∃ text : String,
      (bitcoin_price w arguments).1.content = [mcp_golang.NewTextContent text] ∧
      (bitcoin_price w arguments).1.content.length = 1 ∧
      (mcp_golang.NewTextContent text).type = "text" := by
  rcases hg : get_price w (effectiveCurrency arguments) with ⟨p, _ | e⟩
  · rw [bitcoin_price_of_price w arguments p hg]
    exact ⟨rfl, _, rfl, rfl, rfl⟩
  · rw [bitcoin_price_of_error w arguments p e hg]
    exact ⟨rfl, _, rfl, rfl, rfl⟩

/-- C6, as the code has it: whenever `get_price` returns an error `e`, the response of
`bitcoin_price` is the one text `Error fetching Bitcoin price: ` followed by the message
of `e`; that text starts with `Error fetching Bitcoin price:`, is not itself a price
sentence, and a price sentence occurs inside it only where it occurs inside the message
of `e`.  Conversely a text with that beginning is returned only when `get_price`
returned an error. -/
theorem bitcoin_price_error_text (w : World) (arguments : BitcoinPriceArguments) :
    (∀ (p : Float64) (e : GoError), get_price w (effectiveCurrency arguments) = (p, some e) →
      bitcoin_price w arguments =
        (mcp_golang.NewToolResponse
          [mcp_golang.NewTextContent ("Error fetching Bitcoin price: " ++ e.msg)], none) ∧
      (∃ rest : String,
        "Error fetching Bitcoin price: " ++ e.msg = "Error fetching Bitcoin price:" ++ rest) ∧
      (∀ rest : String,
        "Error fetching Bitcoin price: " ++ e.msg ≠ "The current Bitcoin price is " ++ rest) ∧
      (∀ rest : String,
        occursIn ("The current Bitcoin price is " ++ rest)
          ("Error fetching Bitcoin price: " ++ e.msg) →
        occursIn ("The current Bitcoin price is " ++ rest) e.msg)) ∧
    (∀ rest : String,
      (bitcoin_price w arguments).1 =
        mcp_golang.NewToolResponse
          [mcp_golang.NewTextContent ("Error fetching Bitcoin price:" ++ rest)] →
      ∃ e : GoError, (get_price w (effectiveCurrency arguments)).2 = some e) := by
  constructor
  · intro p e h
    refine ⟨bitcoin_price_of_error w arguments p e h, ⟨_, error_text_split e.msg⟩, ?_,
      fun rest => occursIn_error_text rest e.msg⟩
    intro rest
    rw [error_text_split]
    exact error_text_ne_price_text _ _
  · intro rest h
    rcases hg : get_price w (effectiveCurrency arguments) with ⟨p, _ | e⟩
    · rw [bitcoin_price_of_price w arguments p hg] at h
      simp only [mcp_golang.NewToolResponse, mcp_golang.NewTextContent,
        mcp_golang.ToolResponse.mk.injEq, List.cons.injEq, mcp_golang.Content.mk.injEq,
        true_and, and_true] at h
      simp only [String.append_assoc] at h
      exact absurd h.symm (error_text_ne_price_text _ _)
    · exact ⟨e, rfl⟩

/-- C6 amended, in a world whose request fails, in a world whose body is not JSON, and
with the sample price sentence as the currency argument: the sentence occurs in the
message of the error. -/
theorem bitcoin_price_error_text_witness :
    bitcoin_price { get := Except.error ⟨"context deadline exceeded"⟩, now := sampleTime } ⟨"usd"⟩ =
      (mcp_golang.NewToolResponse [mcp_golang.NewTextContent
        ("Error fetching Bitcoin price: " ++
          "error making request to CoinGecko API: context deadline exceeded")], none) ∧
    (∃ e : GoError,
      (get_price (worldWithBody "\x7bnot json") (effectiveCurrency ⟨"usd"⟩)).2 = some e) ∧
    occursIn
      ("The current Bitcoin price is " ++ "65000.50 usd (as of Mon, 02 Jan 2006 15:04:05 MST)")
      ("unsupported currency: " ++ samplePriceSentence) :=
  ⟨((bitcoin_price_error_text
      { get := Except.error ⟨"context deadline exceeded"⟩, now := sampleTime } ⟨"usd"⟩).1
      Float64.zero ⟨"error making request to CoinGecko API: context deadline exceeded"⟩
      (by decide)).1,
   (bitcoin_price_error_text (worldWithBody "\x7bnot json") ⟨"usd"⟩).2
      " error parsing JSON response: invalid JSON text" (by decide),
   ((bitcoin_price_error_text (worldWithBody sampleBody) ⟨samplePriceSentence⟩).1
      Float64.zero ⟨"unsupported currency: " ++ samplePriceSentence⟩ (by decide)).2.2.2
      "65000.50 usd (as of Mon, 02 Jan 2006 15:04:05 MST)"
      ⟨"Error fetching Bitcoin price: unsupported currency: ", "", by decide⟩⟩

/-- C6 as stated fails: with the sample body, the currency argument set to the price
sentence that `bitcoin_price` returns for `usd`, `get_price` returns the
`unsupported currency` error, and the error text of `bitcoin_price` echoes the argument,
so it contains a price sentence. -/
theorem bitcoin_price_error_text_contains_sentence :
    bitcoin_price (worldWithBody sampleBody) ⟨"usd"⟩ =
      (mcp_golang.NewToolResponse [mcp_golang.NewTextContent samplePriceSentence], none) ∧
    get_price (worldWithBody sampleBody) samplePriceSentence =
      (Float64.zero, some ⟨"unsupported currency: " ++ samplePriceSentence⟩) ∧
    bitcoin_price (worldWithBody sampleBody) ⟨samplePriceSentence⟩ =
      (mcp_golang.NewToolResponse [mcp_golang.NewTextContent
        ("Error fetching Bitcoin price: unsupported currency: " ++ samplePriceSentence)], none) ∧
    occursIn samplePriceSentence
      ("Error fetching Bitcoin price: unsupported currency: " ++ samplePriceSentence) :=
  ⟨by decide, by decide, by decide,
    ⟨"Error fetching Bitcoin price: unsupported currency: ", "", by decide⟩⟩

/-- C7: in every world (same fetch outcome, same clock reading) `bitcoin_price` with
the empty currency returns exactly the response and the nil error it returns with
`USD`; on success its text names the currency as `USD`. -/
theorem bitcoin_price_empty_is_USD (w : World) :
    bitcoin_price w ⟨""⟩ = bitcoin_price w ⟨"USD"⟩ ∧
    ∀ p : Float64, get_price w "USD" = (p, none) →
      bitcoin_price w ⟨""⟩ =
        (mcp_golang.NewToolResponse
          [mcp_golang.NewTextContent ("The current Bitcoin price is " ++ fmt.fixed2 p ++
            " USD (as of " ++ time.formatRFC1123 w.now ++ ")")], none) := by
  constructor
  · rfl
  · intro p h
    rw [bitcoin_price_of_price w ⟨""⟩ p h]
    simp only [effectiveCurrency, String.append_assoc, if_true]
    rfl

/-- C7 at the sample body: the empty argument gives the dollar sentence. -/
theorem bitcoin_price_empty_is_USD_witness :
    bitcoin_price (worldWithBody sampleBody) ⟨""⟩ =
      (mcp_golang.NewToolResponse
        [mcp_golang.NewTextContent ("The current Bitcoin price is " ++
          fmt.fixed2 ⟨0x40EFBD1000000000⟩ ++
          " USD (as of " ++ time.formatRFC1123 (worldWithBody sampleBody).now ++ ")")], none) :=
  (bitcoin_price_empty_is_USD (worldWithBody sampleBody)).2 ⟨0x40EFBD1000000000⟩ (by decide)

/-- C8: for a non-empty currency `c` for which `get_price` returns the price `p` and no
error, the text of `bitcoin_price` is `The current Bitcoin price is `, `p` with two
fixed decimals, a blank, `c` as the caller wrote it, ` (as of `, the clock in RFC1123
format, `)`.  With the price 65000.5 and the argument `usd` the text reads
`The current Bitcoin price is 65000.50 usd (as of <timestamp>)`, not `USD`.  The
rendering of the price ends in a point and exactly two digits. -/
theorem bitcoin_price_success_text (w : World) (c : String) (p : Float64)
    (hc : c ≠ "") (h : get_price w c = (p, none)) :
    bitcoin_price w ⟨c⟩ =
      (mcp_golang.NewToolResponse
        [mcp_golang.NewTextContent ("The current Bitcoin price is " ++ fmt.fixed2 p ++ " " ++
          c ++ " (as of " ++ time.formatRFC1123 w.now ++ ")")], none) ∧
    (p = ⟨0x40EFBD1000000000⟩ → c = "usd" →
      bitcoin_price w ⟨c⟩ =
        (mcp_golang.NewToolResponse
          [mcp_golang.NewTextContent ("The current Bitcoin price is 65000.50 usd (as of " ++
            time.formatRFC1123 w.now ++ ")")], none)) ∧
    (∃ (whole : String) (k : Nat), k < 100 ∧
      fmt.fixed2 p = whole ++ "." ++
        String.mk [Char.ofNat (48 + k / 10), Char.ofNat (48 + k % 10)]) := by
  have he : effectiveCurrency ⟨c⟩ = c := by simp [effectiveCurrency, hc]
  have hmain := bitcoin_price_of_price w ⟨c⟩ p (by rw [he]; exact h)
  rw [he] at hmain
  refine ⟨hmain, ?_, fmt.fixed2_two_decimals p (get_price_finite w c p h)⟩
  intro hp hu
  rw [hmain, hp, hu]
  have h2 : fmt.fixed2 ⟨0x40EFBD1000000000⟩ = "65000.50" := by decide
  rw [h2]
  simp only [String.append_assoc]
  rfl

/-- C8 at the sample body: the argument `usd` at the sample clock, and the arguments
`eur`, `EUR` and `USD` at a later clock in a location without zone abbreviation, at
offsets of -90, -30 and 19800 seconds. -/
theorem bitcoin_price_success_text_witness :
    bitcoin_price (worldWithBody sampleBody) ⟨"usd"⟩ =
      (mcp_golang.NewToolResponse
        [mcp_golang.NewTextContent
          "The current Bitcoin price is 65000.50 usd (as of Mon, 02 Jan 2006 15:04:05 MST)"],
       none) ∧
    bitcoin_price (worldAt (unnamedZoneTime (-90)) sampleBody) ⟨"eur"⟩ =
      (mcp_golang.NewToolResponse
        [mcp_golang.NewTextContent
          "The current Bitcoin price is 60000.10 eur (as of Wed, 04 Nov 2026 09:30:07 -0001)"],
       none) ∧
    bitcoin_price (worldAt (unnamedZoneTime (-30)) sampleBody) ⟨"EUR"⟩ =
      (mcp_golang.NewToolResponse
        [mcp_golang.NewTextContent
          "The current Bitcoin price is 60000.10 EUR (as of Wed, 04 Nov 2026 09:30:07 +0000)"],
       none) ∧
    bitcoin_price (worldAt (unnamedZoneTime 19800) sampleBody) ⟨"USD"⟩ =
      (mcp_golang.NewToolResponse
        [mcp_golang.NewTextContent
          "The current Bitcoin price is 65000.50 USD (as of Wed, 04 Nov 2026 09:30:07 +0530)"],
       none) :=
  ⟨((bitcoin_price_success_text (worldWithBody sampleBody) "usd" ⟨0x40EFBD1000000000⟩
      (by decide) (by decide)).2.1 rfl rfl).trans (by decide),
   ((bitcoin_price_success_text (worldAt (unnamedZoneTime (-90)) sampleBody) "eur"
      ⟨0x40ED4C0333333333⟩ (by decide) (by decide)).1).trans (by decide),
   ((bitcoin_price_success_text (worldAt (unnamedZoneTime (-30)) sampleBody) "EUR"
      ⟨0x40ED4C0333333333⟩ (by decide) (by decide)).1).trans (by decide),
   ((bitcoin_price_success_text (worldAt (unnamedZoneTime 19800) sampleBody) "USD"
      ⟨0x40EFBD1000000000⟩ (by decide) (by decide)).1).trans (by decide)⟩

/-- C9: when the body is not well-formed JSON, `get_price` returns price 0 and an error
whose message starts with `error parsing JSON response: `, for every currency string,
supported or not; the result is not the `unsupported currency` error. -/
theorem get_price_malformed_body (w : World) (resp : http.Response) (body : String)
    (c : String)
    (hget : w.get = Except.ok resp) (hread : io.ReadAll resp.Body = Except.ok body)
    (hbad : json.parse body = none) :
    (get_price w c).1 = Float64.zero ∧
    (∃ rest : String,
      (get_price w c).2 = some ⟨"error parsing JSON response: " ++ rest⟩) ∧
    get_price w c ≠ (Float64.zero, some ⟨"unsupported currency: " ++ c⟩) ∧
    get_price w c = get_price w "USD" := by
  have hjson : json.Unmarshal body CoinGeckoResponse.zero =
      Except.error json.JsonError.syntaxError := by
    unfold json.Unmarshal
    rw [hbad]
  have hex : ∀ x : String, get_price w x =
      (Float64.zero, some ⟨"error parsing JSON response: " ++
        json.JsonError.syntaxError.Error⟩) :=
    fun x => get_price_of_decode_error w resp body _ x hget hread hjson
  rw [hex c, hex "USD"]
  refine ⟨rfl, ⟨_, rfl⟩, ?_, rfl⟩
  intro hne
  simp only [Prod.mk.injEq, Option.some.injEq, GoError.mk.injEq, true_and] at hne
  have h2 := congrArg (fun s => s.data.head?) hne
  simp [String.data_append] at h2

/-- C9 at the body `{not json` with the unsupported currency `XYZ`. -/
theorem get_price_malformed_body_witness :
    (get_price (worldWithBody "\x7bnot json") "XYZ").1 = Float64.zero ∧
    (∃ rest : String, (get_price (worldWithBody "\x7bnot json") "XYZ").2 =
      some ⟨"error parsing JSON response: " ++ rest⟩) :=
  have h := get_price_malformed_body (worldWithBody "\x7bnot json")
    { StatusCode := 200, Body := Except.ok "\x7bnot json" } "\x7bnot json" "XYZ" rfl rfl rfl
  ⟨h.1, h.2.1⟩

/-- C10: `hello_world` returns a nil error and the one text
`Hello, <Submitter>! Welcome to the MCP Example.`; two arguments with the same
submitter give the same response, whatever their content. -/
theorem hello_world_greeting (arguments : HelloArgs) :
    hello_world arguments =
      (mcp_golang.NewToolResponse
        [mcp_golang.NewTextContent
          ("Hello, " ++ arguments.Submitter ++ "! Welcome to the MCP Example.")], none) ∧
    ∀ other : HelloArgs, other.Submitter = arguments.Submitter →
      hello_world other = hello_world arguments := by
  refine ⟨rfl, ?_⟩
  intro other h
  simp only [hello_world, h]

/-- C10 at two arguments that differ in title and description. -/
theorem hello_world_greeting_witness :
    hello_world ⟨"Ada", ⟨"first", none⟩⟩ = hello_world ⟨"Ada", ⟨"second", some "notes"⟩⟩ :=
  (hello_world_greeting ⟨"Ada", ⟨"second", some "notes"⟩⟩).2 ⟨"Ada", ⟨"first", none⟩⟩ rfl
